import Mathlib

/-!
Verification development for the HexaHunt hexagonal dots-and-boxes engine.

The game logic is embedded from `game_logic.py` (the Move Engine) and the
search from `third_checkpoint/ai.py`.  Python dicts whose keys range over
cells, edges or players are embedded as total functions updated pointwise
(`upd`); the board's combinatorial structure (which cells exist, which six
edges bound each cell, which cells an edge touches) is carried in a `Board`
record, abstracting the screen-geometry of `init_state` (pixel vertices,
`pygame` window centring) which only determines these incidence lists.
Cell and edge identifiers are abstract (`Nat`) stand-ins for the `(q, r)`
axial tuples and vertex-pair tuples the Python code uses as dict keys.
`random` item placement is abstracted by passing the treasure/artifact
assignment as a parameter.  Python's `math.inf` sentinels in the search are
embedded by the three-point extension `XInt` of the integers.  Python's
stable `sorted` is embedded as a stable insertion sort (`stableSort`): for a
total boolean preorder a stable sort's output is unique, so this agrees
with CPython's stable sort.  The transposition-table "hash" of
`ai.py:hash_state` is embedded injectively as the sorted `(edge, owner)`
association list itself (CPython's `hash` of that tuple, minus collisions;
collisions could only make the table reuse entries more often).
-/

namespace HexaHunt

abbrev Cell := Nat
abbrev Edge := Nat
abbrev Player := Nat

/-- The five treasure kinds of `game_logic.py:TREASURES`. -/
inductive Treasure
  | copper
  | silver
  | gold
  | platinum
  | diamond
deriving DecidableEq

/-- The three artifact kinds of `game_logic.py:ARTIFACTS`. -/
inductive Artifact
  | hourglass
  | gauntlet
  | compass
deriving DecidableEq

/-- A value stored in `claimed_items` (Python uses one string namespace for
treasure and artifact names; the two namespaces are disjoint). -/
inductive Item
  | treasure (t : Treasure)
  | artifact (a : Artifact)
deriving DecidableEq

/-- `game_logic.py` lines 10-16: treasure values. -/
def TREASURES : Treasure → Int
  | .copper => 1
  | .silver => 3
  | .gold => 5
  | .platinum => 8
  | .diamond => 8

/-- The static combinatorial structure built by `init_state`
(`game_logic.py` lines 91-111): the edge dict's key order, the cell list,
and the `cell_edges` / `edge_cells` incidence dicts. -/
structure Board where
  edges : List Edge
  cells : List Cell
  cell_edges : Cell → List Edge
  edge_cells : Edge → List Cell

/-- The mutable part of the `state` dict of `game_logic.py` (the pixel
geometry field `cell_vertices` is omitted: no game operation reads it).
Owners are `-1` (unclaimed), `0` or `1`. -/
structure GameState where
  cells : Cell → Int
  edges : Edge → Int
  turn : Player
  score : Player → Int
  last_move : Option Edge
  treasures : Cell → Option Treasure
  artifacts : Cell → Option Artifact
  claimed_items : Cell → Option Item
  gauntlet_available : Player → Bool
  gauntlet_timer : Player → Int
  gauntlet_cell : Player → Option Cell
  last_treasure_value : Player → Int
  compass_available : Player → Bool
  compass_cell : Player → Option Cell
  hourglass_bonus : Player → Int

/-- Pointwise update of a dict-as-function (Python `d[k] = v`). -/
def upd {α : Type} (f : Nat → α) (k : Nat) (v : α) : Nat → α :=
  fun x => if x = k then v else f x

theorem upd_same {α : Type} (f : Nat → α) (k : Nat) (v : α) : upd f k v k = v := by
  simp [upd]

theorem upd_other {α : Type} (f : Nat → α) (k : Nat) (v : α) (x : Nat) (h : x ≠ k) :
    upd f k v x = f x := by
  simp [upd, h]

/-- `game_logic.py:init_state` lines 71-126, with the incidence structure
and the random treasure/artifact assignment passed in as parameters. -/
def init_state (tre : Cell → Option Treasure) (art : Cell → Option Artifact) : GameState where
  cells := fun _ => -1
  edges := fun _ => -1
  turn := 0
  score := fun _ => 0
  last_move := none
  treasures := tre
  artifacts := art
  claimed_items := fun _ => none
  gauntlet_available := fun _ => false
  gauntlet_timer := fun _ => 0
  gauntlet_cell := fun _ => none
  last_treasure_value := fun _ => 0
  compass_available := fun _ => false
  compass_cell := fun _ => none
  hourglass_bonus := fun _ => 0

/-- `game_logic.py:get_possible_moves` line 130-131. -/
def get_possible_moves (b : Board) (s : GameState) : List Edge :=
  b.edges.filter (fun e => s.edges e == -1)

/-- `game_logic.py:is_terminal` lines 211-212. -/
def is_terminal (b : Board) (s : GameState) : Bool :=
  b.edges.all (fun e => s.edges e != -1)

/-- `game_logic.py:evaluate` lines 214-215. -/
def evaluate (s : GameState) : Int :=
  s.score 1 - s.score 0

/-- `apply_move` lines 144-155: decrement a held gauntlet's lifespan and
expire it when the timer reaches 0 (popping its artifact/claimed entries). -/
def gauntletTick (s : GameState) (player : Player) : GameState :=
  if s.gauntlet_available player = true ∧ 0 < s.gauntlet_timer player then
    let t' := s.gauntlet_timer player - 1
    let s1 : GameState := { s with gauntlet_timer := upd s.gauntlet_timer player t' }
    if t' = 0 then
      match s1.gauntlet_cell player with
      | some c0 =>
          { s1 with
            artifacts := upd s1.artifacts c0 none
            claimed_items := upd s1.claimed_items c0 none
            gauntlet_available := upd s1.gauntlet_available player false
            gauntlet_cell := upd s1.gauntlet_cell player none }
      | none =>
          { s1 with
            gauntlet_available := upd s1.gauntlet_available player false
            gauntlet_cell := upd s1.gauntlet_cell player none }
    else s1
  else s

/-- The completion test of `apply_move` line 163, evaluated on the state in
which the played edge has already been marked. -/
def completesB (b : Board) (s : GameState) (c : Cell) : Bool :=
  s.cells c == -1 && (b.cell_edges c).all (fun e => s.edges e != -1)

/-- `apply_move` lines 164-194: claim a completed cell for `player`: base
point, treasure scoring/recording, artifact pickup effects. -/
def claimCell (player : Player) (s : GameState) (c : Cell) : GameState :=
  let s1 : GameState :=
    { s with
      cells := upd s.cells c (player : Int)
      score := upd s.score player (s.score player + 1) }
  let s2 : GameState :=
    match s1.treasures c with
    | some t =>
        let v := TREASURES t
        { s1 with
          score := upd s1.score player (s1.score player + v)
          claimed_items := upd s1.claimed_items c (some (.treasure t))
          last_treasure_value := upd s1.last_treasure_value player v }
    | none => s1
  match s2.artifacts c with
  | some a =>
      let s3 : GameState := { s2 with claimed_items := upd s2.claimed_items c (some (.artifact a)) }
      match a with
      | .hourglass =>
          { s3 with hourglass_bonus := upd s3.hourglass_bonus player (s3.hourglass_bonus player + 1) }
      | .gauntlet =>
          { s3 with
            gauntlet_available := upd s3.gauntlet_available player true
            gauntlet_timer := upd s3.gauntlet_timer player 5
            gauntlet_cell := upd s3.gauntlet_cell player (some c)
            artifacts := upd s3.artifacts c none }
      | .compass =>
          { s3 with
            compass_available := upd s3.compass_available player true
            compass_cell := upd s3.compass_cell player (some c) }
  | none => s2

/-- The `for cell in new_state['edge_cells'][move]` loop of `apply_move`
lines 162-194, threading the `(state, extra_turn)` accumulator. -/
def processCells (b : Board) (player : Player) (cs : List Cell)
    (acc : GameState × Bool) : GameState × Bool :=
  cs.foldl
    (fun acc c =>
      if completesB b acc.1 c then (claimCell player acc.1 c, true) else acc)
    acc

/-- The state right after `apply_move` ticks the gauntlet and marks the
played edge (lines 144-159). -/
def markedState (s : GameState) (move : Edge) (player : Player) : GameState :=
  { gauntletTick s player with
    edges := upd (gauntletTick s player).edges move (player : Int)
    last_move := some move }

/-- The `(state, extra_turn)` pair right after the completion loop of
`apply_move` (lines 160-194), before bonus consumption and the turn
switch. -/
def moveLoopResult (b : Board) (s : GameState) (move : Edge) (player : Player) :
    GameState × Bool :=
  processCells b player (b.edge_cells move) (markedState s move player, false)

/-- `game_logic.py:apply_move` lines 133-208.  The input is deep-copied by
the source (line 135), so the function is pure in the state value; the
`setdefault` calls are identities here because every tracking dict is a
field of `GameState`.  Lines 196-201 consume one banked hourglass bonus
when the move completed nothing; lines 203-205 flip the turn when no extra
turn was earned. -/
def apply_move (b : Board) (s : GameState) (move : Edge) (player : Player) :
    GameState × Bool :=
  let r := moveLoopResult b s move player
  let r2 : GameState × Bool :=
    if r.2 = false ∧ 0 < r.1.hourglass_bonus player then
      ({ r.1 with hourglass_bonus := upd r.1.hourglass_bonus player (r.1.hourglass_bonus player - 1) },
       true)
    else r
  if r2.2 = false then ({ r2.1 with turn := 1 - player }, r2.2) else r2

/-- `game_logic.py:use_compass` lines 218-252.  The source mutates `state`
in place and returns it; this is the value it returns (see
`use_compass_argAfter`). -/
def use_compass (s : GameState) (player : Player) (target : Cell) : GameState :=
  match s.compass_cell player with
  | none => s
  | some source =>
    if s.compass_available player = false then s
    else
      let opponent := 1 - player
      if s.cells target ≠ (opponent : Int) then s
      else
        let s1 : GameState :=
          { s with cells := upd (upd s.cells source (opponent : Int)) target (player : Int) }
        let s2 : GameState :=
          { s1 with
            artifacts := upd s1.artifacts source none
            claimed_items := upd s1.claimed_items source none }
        let s3 : GameState :=
          match s2.treasures source with
          | some t =>
              let v := TREASURES t
              let sc1 := upd s2.score player (s2.score player - v)
              { s2 with score := upd sc1 opponent (sc1 opponent + v) }
          | none => s2
        let s4 : GameState :=
          match s3.treasures target with
          | some t =>
              let v := TREASURES t
              let sc1 := upd s3.score opponent (s3.score opponent - v)
              { s3 with score := upd sc1 player (sc1 player + v) }
          | none => s3
        { s4 with
          compass_available := upd s4.compass_available player false
          compass_cell := upd s4.compass_cell player none }

/-- `game_logic.py:use_gauntlet` lines 255-277.  The source mutates `state`
in place and returns it; this is the value it returns (see
`use_gauntlet_argAfter`).  `amount` is the optional keyword argument
(default `None`). -/
def use_gauntlet (s : GameState) (player : Player) (amount : Option Int) : GameState :=
  let opponent := 1 - player
  if s.gauntlet_available player = false then s
  else
    let last_val := s.last_treasure_value opponent
    if last_val ≤ 0 then s
    else
      let steal0 := amount.getD last_val
      let steal := min steal0 (min last_val (s.score opponent))
      let sc1 := upd s.score opponent (s.score opponent - steal)
      let sc2 := upd sc1 player (sc1 player + steal)
      let s1 : GameState := { s with score := sc2 }
      let s2 : GameState :=
        match s1.gauntlet_cell player with
        | some c0 =>
            { s1 with
              artifacts := upd s1.artifacts c0 none
              claimed_items := upd s1.claimed_items c0 none }
        | none => s1
      { s2 with
        gauntlet_available := upd s2.gauntlet_available player false
        gauntlet_timer := upd s2.gauntlet_timer player 0
        gauntlet_cell := upd s2.gauntlet_cell player none }

/-! ### Aliasing behaviour of the Move Engine (for the copy-on-write claim)

Each `..._argAfter` definition gives the value of the caller's `state`
argument after the call, read off the source: `apply_move` deep-copies its
input (line 135) and never writes to it, while `use_gauntlet` and
`use_compass` write their updates into the argument itself and `return
state`, so after those calls the argument holds the returned value. -/

/-- After `apply_move(state, move, player)` the caller's `state` still holds
its old value (the source works on a `copy.deepcopy`). -/
def apply_move_argAfter (b : Board) (s : GameState) (move : Edge) (player : Player) :
    GameState := s

/-- After `use_gauntlet(state, player)` the caller's `state` holds the
returned (possibly updated) value: the source updates `state` in place. -/
def use_gauntlet_argAfter (s : GameState) (player : Player) (amount : Option Int) :
    GameState := use_gauntlet s player amount

/-- After `use_compass(state, player, target)` the caller's `state` holds
the returned (possibly updated) value: the source updates `state` in place. -/
def use_compass_argAfter (s : GameState) (player : Player) (target : Cell) :
    GameState := use_compass s player target

/-! ### The search engine (`third_checkpoint/ai.py`) -/

/-- Integers extended with the two `math.inf` sentinels used by `minimax`. -/
inductive XInt
  | ninf
  | fin (v : Int)
  | pinf
deriving DecidableEq

/-- Strict order on `XInt`, matching Python float/int comparison against
`math.inf` (no NaNs arise). -/
def XInt.blt : XInt → XInt → Bool
  | .ninf, .ninf => false
  | .ninf, _ => true
  | _, .ninf => false
  | .fin a, .fin b => a < b
  | .fin _, .pinf => true
  | .pinf, _ => false

/-- Non-strict order on `XInt` (total order, so `a ≤ b ↔ ¬ b < a`). -/
def XInt.ble (a b : XInt) : Bool := !(XInt.blt b a)

/-- Python `max(a, b)` (returns the first argument on ties). -/
def XInt.max (a b : XInt) : XInt := if XInt.blt a b then b else a

/-- Python `min(a, b)` (returns the first argument on ties). -/
def XInt.min (a b : XInt) : XInt := if XInt.blt b a then b else a

/-- Stable insertion of `x` into `l`: `x` goes after every element `y` with
`le y x`. -/
def insertLe {α : Type} (le : α → α → Bool) (x : α) : List α → List α
  | [] => [x]
  | y :: ys => if le y x then y :: insertLe le x ys else x :: y :: ys

/-- Stable sort by repeated insertion; for a total boolean preorder this
computes exactly what CPython's stable `sorted` computes. -/
def stableSort {α : Type} (le : α → α → Bool) (l : List α) : List α :=
  l.foldl (fun acc x => insertLe le x acc) []

/-- `ai.py:order_moves` lines 13-27: heuristic score of one move. -/
def moveScoreH (b : Board) (s : GameState) (move : Edge) : Int :=
  (b.edge_cells move).foldl
    (fun acc c =>
      if s.cells c == -1 then
        let drawn := ((b.cell_edges c).filter (fun e => e == move || s.edges e != -1)).length
        if drawn = 6 then acc + 100 else if drawn = 5 then acc + 50 else acc
      else acc)
    0

/-- `ai.py:order_moves`: stable sort of the moves by heuristic score,
descending when ordering for the maximizing player (`reverse=True`),
ascending otherwise. -/
def order_moves (b : Board) (s : GameState) (moves : List Edge)
    (maximizing : Bool) : List Edge :=
  let scored := moves.map (fun m => (m, moveScoreH b s m))
  let srt :=
    if maximizing then stableSort (fun x y => decide (y.2 ≤ x.2)) scored
    else stableSort (fun x y => decide (x.2 ≤ y.2)) scored
  srt.map Prod.fst

/-- A transposition-table entry (`{'value': .., 'move': .., 'depth': ..}`). -/
structure TTEntry where
  value : XInt
  move : Option Edge
  depth : Nat
deriving DecidableEq

/-- `ai.py:hash_state` lines 7-9, embedded injectively: the sorted list of
`(edge, owner)` pairs that the source hashes. -/
abbrev TTKey := List (Edge × Int)

/-- The transposition table: a dict from state keys to entries; updates
prepend and lookups take the most recent binding. -/
abbrev TT := List (TTKey × TTEntry)

/-- `ai.py:hash_state`: `tuple(sorted((edge, owner) for ...))`. -/
def hash_state (b : Board) (s : GameState) : TTKey :=
  stableSort (fun x y => decide (x.1 ≤ y.1)) (b.edges.map (fun e => (e, s.edges e)))

/-- Dict membership-plus-read of `ai.py` lines 36-38: the cached result is
used only when an entry exists and was stored at depth `≥` the requested
depth. -/
def cachedAt (b : Board) (depth : Nat) (s : GameState) (tt : TT) :
    Option (XInt × Option Edge) :=
  match tt.lookup (hash_state b s) with
  | some e => if depth ≤ e.depth then some (e.value, e.move) else none
  | none => none

/-- `ai.py` lines 40-43: evaluate a leaf and store it in the table. -/
def leafStep (b : Board) (depth : Nat) (s : GameState) (tt : TT) :
    XInt × Option Edge × TT :=
  let v := XInt.fin (evaluate s)
  (v, none, (hash_state b s, ⟨v, none, depth⟩) :: tt)

/-- The maximizing `for move in ordered_moves` loop of `ai.py` lines 49-73:
`recur` is the depth-decremented recursive call.  The pygame message block
(lines 53-65) only assigns local variables and is omitted. -/
def abLoopMax (recur : GameState → XInt → XInt → Bool → TT → XInt × Option Edge × TT)
    (b : Board) (s : GameState) :
    List Edge → XInt → XInt → XInt → Option Edge → TT → XInt × Option Edge × TT
  | [], _, _, maxEval, best, tt => (maxEval, best, tt)
  | m :: rest, alpha, beta, maxEval, best, tt =>
    let st := apply_move b s m 1
    let r := recur st.1 alpha beta (if st.2 then true else false) tt
    let score := r.1
    let tt1 := r.2.2
    let me2 := if XInt.blt maxEval score then score else maxEval
    let best2 := if XInt.blt maxEval score then some m else best
    let alpha2 := XInt.max alpha score
    if XInt.ble beta alpha2 then (me2, best2, tt1)
    else abLoopMax recur b s rest alpha2 beta me2 best2 tt1

/-- The minimizing loop of `ai.py` lines 76-100 (the AI simulates the
opponent as player 0). -/
def abLoopMin (recur : GameState → XInt → XInt → Bool → TT → XInt × Option Edge × TT)
    (b : Board) (s : GameState) :
    List Edge → XInt → XInt → XInt → Option Edge → TT → XInt × Option Edge × TT
  | [], _, _, minEval, best, tt => (minEval, best, tt)
  | m :: rest, alpha, beta, minEval, best, tt =>
    let st := apply_move b s m 0
    let r := recur st.1 alpha beta (if st.2 then false else true) tt
    let score := r.1
    let tt1 := r.2.2
    let me2 := if XInt.blt score minEval then score else minEval
    let best2 := if XInt.blt score minEval then some m else best
    let beta2 := XInt.min beta score
    if XInt.ble beta2 alpha then (me2, best2, tt1)
    else abLoopMin recur b s rest alpha beta2 me2 best2 tt1

/-- `ai.py:minimax` lines 31-102: alpha-beta search with the shared
transposition table threaded through.  At depth 0 the `depth == 0 or
is_terminal` test always fires, so that arm goes straight from the cache
test to the leaf step. -/
def minimax (b : Board) :
    Nat → GameState → XInt → XInt → Bool → TT → XInt × Option Edge × TT
  | 0, s, _, _, _, tt =>
    (match cachedAt b 0 s tt with
     | some (v, m) => (v, m, tt)
     | none => leafStep b 0 s tt)
  | d + 1, s, alpha, beta, maximizingPlayer, tt =>
    (match cachedAt b (d + 1) s tt with
     | some (v, m) => (v, m, tt)
     | none =>
       if is_terminal b s then leafStep b (d + 1) s tt
       else
         let ordered := order_moves b s (get_possible_moves b s) maximizingPlayer
         if maximizingPlayer then
           let r := abLoopMax (fun s2 a2 b2 mx t2 => minimax b d s2 a2 b2 mx t2)
             b s ordered alpha beta XInt.ninf none tt
           (r.1, r.2.1, (hash_state b s, ⟨r.1, r.2.1, d + 1⟩) :: r.2.2)
         else
           let r := abLoopMin (fun s2 a2 b2 mx t2 => minimax b d s2 a2 b2 mx t2)
             b s ordered alpha beta XInt.pinf none tt
           (r.1, r.2.1, (hash_state b s, ⟨r.1, r.2.1, d + 1⟩) :: r.2.2))

/-- The spec's reference search ("exhaustive (no-pruning) minimax"): same
recursion scheme, same extra-turn handling, but no alpha-beta window and no
transposition table.  This definition follows the spec's words, to be
compared with `minimax`. -/
def minimax_noPrune (b : Board) : Nat → GameState → Bool → XInt
  | 0, s, _ => XInt.fin (evaluate s)
  | d + 1, s, maxim =>
    if is_terminal b s then XInt.fin (evaluate s)
    else
      let moves := get_possible_moves b s
      if maxim then
        moves.foldl
          (fun acc m =>
            let st := apply_move b s m 1
            XInt.max acc (minimax_noPrune b d st.1 (if st.2 then true else false)))
          XInt.ninf
      else
        moves.foldl
          (fun acc m =>
            let st := apply_move b s m 0
            XInt.min acc (minimax_noPrune b d st.1 (if st.2 then false else true)))
          XInt.pinf

/-! ### Concrete counterexample instances -/

/-- Two adjacent hexagonal cells sharing edge 0; cell 0 is bounded by edges
0-5, cell 1 by edge 0 and edges 6-10 (exactly the incidence structure of
two neighbouring cells of `init_state`). -/
def cexBoard : Board where
  edges := [0, 1, 2, 3, 4, 5, 6, 7, 8, 9, 10]
  cells := [0, 1]
  cell_edges := fun c =>
    if c = 0 then [0, 1, 2, 3, 4, 5]
    else if c = 1 then [0, 6, 7, 8, 9, 10] else []
  edge_cells := fun e =>
    if e = 0 then [0, 1]
    else if e ≤ 5 then [0]
    else if e ≤ 10 then [1] else []

/-- A mid-game position on `cexBoard`: edges 0, 2 and 5 are unclaimed, both
cells open, no treasures or artifacts, player 0 to move, scores 0-0. -/
def cexState : GameState where
  cells := fun _ => -1
  edges := fun e =>
    if e = 0 then -1
    else if e = 1 then 0
    else if e = 2 then -1
    else if e = 3 then 1
    else if e = 4 then 0
    else if e = 5 then -1
    else if e = 6 then 0
    else if e = 7 then 0
    else if e = 8 then 1
    else if e = 9 then 1
    else if e = 10 then 0 else -1
  turn := 0
  score := fun _ => 0
  last_move := none
  treasures := fun _ => none
  artifacts := fun _ => none
  claimed_items := fun _ => none
  gauntlet_available := fun _ => false
  gauntlet_timer := fun _ => 0
  gauntlet_cell := fun _ => none
  last_treasure_value := fun _ => 0
  compass_available := fun _ => false
  compass_cell := fun _ => none
  hourglass_bonus := fun _ => 0

/-! ### Derived notions used in the specifications -/

/-- The claim's completion condition, phrased against the pre-move state:
cell `c` is unclaimed and, once `move` is marked, all of its bounding edges
are owned.  (Equal to the in-loop test `completesB` evaluated on the state
with `move` marked; see `completesB_mark`.) -/
def completesAfter (b : Board) (s : GameState) (move : Edge) (c : Cell) : Bool :=
  s.cells c == -1 && (b.cell_edges c).all (fun e => e == move || s.edges e != -1)

/-- The treasure value sitting on a cell (0 when the cell has none). -/
def tval (s : GameState) (c : Cell) : Int :=
  match s.treasures c with
  | some t => TREASURES t
  | none => 0

/-- The `claimed_items` record written when a cell holding the given
artifact/treasure is completed: the artifact entry overwrites the treasure
entry (`apply_move` lines 173 and 179). -/
def claimedItemOf (art : Option Artifact) (tre : Option Treasure)
    (fallback : Option Item) : Option Item :=
  match art with
  | some a => some (.artifact a)
  | none =>
    match tre with
    | some t => some (.treasure t)
    | none => fallback

theorem natCast_ne_negOne (p : Nat) : (p : Int) ≠ -1 := by omega

/-- Marking an edge turns the in-loop completion test into the pre-move
completion condition of the claims. -/
theorem completesB_mark (b : Board) (s : GameState) (move : Edge) (p : Player)
    (c : Cell) :
    completesB b { s with edges := upd s.edges move (p : Int), last_move := some move } c =
      completesAfter b s move c := by
  simp only [completesB, completesAfter]
  congr 1
  induction b.cell_edges c with
  | nil => rfl
  | cons e es ih =>
    simp only [List.all_cons, ih]
    congr 1
    by_cases he : e = move
    · subst he
      simp [upd, natCast_ne_negOne p]
    · simp [upd, he, bne]

/-- Fields of the state that `gauntletTick` never writes. -/
theorem gauntletTick_frame (s : GameState) (p : Player) :
    (gauntletTick s p).cells = s.cells ∧ (gauntletTick s p).edges = s.edges ∧
    (gauntletTick s p).treasures = s.treasures ∧ (gauntletTick s p).turn = s.turn ∧
    (gauntletTick s p).score = s.score ∧ (gauntletTick s p).last_move = s.last_move ∧
    (gauntletTick s p).compass_cell = s.compass_cell ∧
    (gauntletTick s p).hourglass_bonus = s.hourglass_bonus := by
  simp only [gauntletTick]
  repeat' split
  all_goals exact ⟨rfl, rfl, rfl, rfl, rfl, rfl, rfl, rfl⟩

/-- Fields of the state that `claimCell` never writes. -/
theorem claimCell_frame (p : Player) (t : GameState) (c : Cell) :
    (claimCell p t c).edges = t.edges ∧ (claimCell p t c).treasures = t.treasures ∧
    (claimCell p t c).turn = t.turn ∧ (claimCell p t c).last_move = t.last_move := by
  rcases h1 : t.treasures c with _ | tr <;> rcases h2 : t.artifacts c with _ | a
  all_goals try cases a
  all_goals simp [claimCell, h1, h2]

theorem claimCell_cells (p : Player) (t : GameState) (c : Cell) (x : Cell) :
    (claimCell p t c).cells x = if x = c then (p : Int) else t.cells x := by
  rcases h1 : t.treasures c with _ | tr <;> rcases h2 : t.artifacts c with _ | a
  all_goals try cases a
  all_goals simp [claimCell, h1, h2, upd]

theorem claimCell_score_self (p : Player) (t : GameState) (c : Cell) :
    (claimCell p t c).score p = t.score p + 1 + tval t c := by
  rcases h1 : t.treasures c with _ | tr <;> rcases h2 : t.artifacts c with _ | a
  all_goals try cases a
  all_goals simp [claimCell, h1, h2, upd, tval]

theorem claimCell_score_other (p : Player) (t : GameState) (c : Cell) (q : Player)
    (hq : q ≠ p) :
    (claimCell p t c).score q = t.score q := by
  rcases h1 : t.treasures c with _ | tr <;> rcases h2 : t.artifacts c with _ | a
  all_goals try cases a
  all_goals simp [claimCell, h1, h2, upd, hq]

theorem claimCell_bonus_self (p : Player) (t : GameState) (c : Cell) :
    (claimCell p t c).hourglass_bonus p =
      t.hourglass_bonus p + (if t.artifacts c = some .hourglass then 1 else 0) := by
  rcases h1 : t.treasures c with _ | tr <;> rcases h2 : t.artifacts c with _ | a
  all_goals try cases a
  all_goals simp [claimCell, h1, h2, upd]

theorem claimCell_bonus_other (p : Player) (t : GameState) (c : Cell) (q : Player)
    (hq : q ≠ p) :
    (claimCell p t c).hourglass_bonus q = t.hourglass_bonus q := by
  rcases h1 : t.treasures c with _ | tr <;> rcases h2 : t.artifacts c with _ | a
  all_goals try cases a
  all_goals simp [claimCell, h1, h2, upd, hq]

theorem claimCell_claimed_self (p : Player) (t : GameState) (c : Cell) :
    (claimCell p t c).claimed_items c =
      claimedItemOf (t.artifacts c) (t.treasures c) (t.claimed_items c) := by
  rcases h1 : t.treasures c with _ | tr <;> rcases h2 : t.artifacts c with _ | a
  all_goals try cases a
  all_goals simp [claimCell, claimedItemOf, h1, h2, upd]

theorem claimCell_claimed_other (p : Player) (t : GameState) (c : Cell) (x : Cell)
    (hx : x ≠ c) :
    (claimCell p t c).claimed_items x = t.claimed_items x := by
  rcases h1 : t.treasures c with _ | tr <;> rcases h2 : t.artifacts c with _ | a
  all_goals try cases a
  all_goals simp [claimCell, h1, h2, upd, hx]

theorem claimCell_artifacts_other (p : Player) (t : GameState) (c : Cell) (x : Cell)
    (hx : x ≠ c) :
    (claimCell p t c).artifacts x = t.artifacts x := by
  rcases h1 : t.treasures c with _ | tr <;> rcases h2 : t.artifacts c with _ | a
  all_goals try cases a
  all_goals simp [claimCell, h1, h2, upd, hx]

theorem claimCell_compass (p : Player) (t : GameState) (c : Cell) (q : Player)
    (c' : Cell) (h : (claimCell p t c).compass_cell q = some c') :
    t.compass_cell q = some c' ∨ c' = c := by
  rcases h1 : t.treasures c with _ | tr <;> rcases h2 : t.artifacts c with _ | a
  all_goals try cases a
  all_goals simp only [claimCell, h1, h2, upd] at h
  all_goals try exact Or.inl h
  all_goals rcases eq_or_ne q p with hq | hq
  all_goals first
    | (rw [if_pos hq] at h
       exact Or.inr (Option.some.inj h).symm)
    | (rw [if_neg hq] at h
       exact Or.inl h)

theorem processCells_cons (b : Board) (p : Player) (c : Cell) (cs : List Cell)
    (acc : GameState × Bool) :
    processCells b p (c :: cs) acc =
      processCells b p cs
        (if completesB b acc.1 c then (claimCell p acc.1 c, true) else acc) := rfl

theorem tval_congr (t w : GameState) (c : Cell) (h : t.treasures = w.treasures) :
    tval t c = tval w c := by
  unfold tval
  rw [h]

/-- Full characterisation of the completion loop of `apply_move` (lines
162-194) relative to a reference state `w` that fixes the completion test:
the loop claims exactly the unclaimed-and-now-surrounded cells for `player`,
awards 1 base point plus treasure value per claimed cell, banks one
hourglass bonus per claimed hourglass cell, records claimed items (artifact
over treasure), reports an extra turn iff it claimed something, and leaves
every other field alone.  `t` is the loop's running state; it may differ
from `w` only at already-processed cells (outside `L`). -/
theorem processCells_spec (b : Board) (p : Player) (w : GameState) :
    ∀ (L : List Cell) (t : GameState) (ex : Bool),
    L.Nodup →
    t.edges = w.edges → t.treasures = w.treasures →
    (∀ c ∈ L, t.cells c = w.cells c) →
    (∀ c ∈ L, t.artifacts c = w.artifacts c) →
    (processCells b p L (t, ex)).1.edges = t.edges ∧
    (processCells b p L (t, ex)).1.treasures = t.treasures ∧
    (processCells b p L (t, ex)).1.turn = t.turn ∧
    (processCells b p L (t, ex)).1.last_move = t.last_move ∧
    (processCells b p L (t, ex)).2 = (ex || L.any (fun c => completesB b w c)) ∧
    (∀ x, (processCells b p L (t, ex)).1.cells x =
        if x ∈ L.filter (fun c => completesB b w c) then (p : Int) else t.cells x) ∧
    (processCells b p L (t, ex)).1.score p =
        t.score p + ((L.filter (fun c => completesB b w c)).map (fun c => 1 + tval w c)).sum ∧
    (∀ q, q ≠ p → (processCells b p L (t, ex)).1.score q = t.score q) ∧
    (processCells b p L (t, ex)).1.hourglass_bonus p =
        t.hourglass_bonus p +
          (((L.filter (fun c => completesB b w c)).filter
            (fun c => decide (w.artifacts c = some .hourglass))).length : Int) ∧
    (∀ q, q ≠ p → (processCells b p L (t, ex)).1.hourglass_bonus q = t.hourglass_bonus q) ∧
    (∀ x, x ∉ L.filter (fun c => completesB b w c) →
        (processCells b p L (t, ex)).1.claimed_items x = t.claimed_items x) ∧
    (∀ x ∈ L.filter (fun c => completesB b w c),
        (processCells b p L (t, ex)).1.claimed_items x =
          claimedItemOf (w.artifacts x) (w.treasures x) (t.claimed_items x)) ∧
    (∀ q c', (processCells b p L (t, ex)).1.compass_cell q = some c' →
        t.compass_cell q = some c' ∨ c' ∈ L.filter (fun c => completesB b w c)) := by
  intro L
  induction L with
  | nil =>
    intro t ex _ _ _ _ _
    refine ⟨rfl, rfl, rfl, rfl, by simp [processCells], ?_, by simp [processCells], ?_,
      by simp [processCells], ?_, ?_, ?_, ?_⟩
    · intro x
      simp [processCells]
    · intro q _
      rfl
    · intro q _
      rfl
    · intro x _
      rfl
    · intro x hx
      simp at hx
    · intro q c' h
      exact Or.inl h
  | cons c L' ih =>
    intro t ex hN hE hT hC hA
    have hcnotin : c ∉ L' := (List.nodup_cons.mp hN).1
    have hN' : L'.Nodup := (List.nodup_cons.mp hN).2
    have hcomp : completesB b t c = completesB b w c := by
      unfold completesB
      rw [hC c (List.mem_cons_self c L'), hE]
    rw [processCells_cons]
    by_cases hc : completesB b w c = true
    · rw [if_pos (by rw [hcomp]; exact hc)]
      set t' := claimCell p t c with ht'
      have hfr := claimCell_frame p t c
      have hE' : t'.edges = w.edges := hfr.1.trans hE
      have hT' : t'.treasures = w.treasures := hfr.2.1.trans hT
      have hC' : ∀ x ∈ L', t'.cells x = w.cells x := by
        intro x hx
        rw [ht', claimCell_cells, if_neg (ne_of_mem_of_not_mem hx hcnotin),
          hC x (List.mem_cons_of_mem c hx)]
      have hA' : ∀ x ∈ L', t'.artifacts x = w.artifacts x := by
        intro x hx
        rw [ht', claimCell_artifacts_other p t c x (ne_of_mem_of_not_mem hx hcnotin),
          hA x (List.mem_cons_of_mem c hx)]
      obtain ⟨ih1, ih2, ih3, ih4, ih5, ih6, ih7, ih8, ih9, ih10, ih11, ih12, ih13⟩ :=
        ih t' true hN' hE' hT' hC' hA'
      have hFc : (c :: L').filter (fun c => completesB b w c) =
          c :: L'.filter (fun c => completesB b w c) := List.filter_cons_of_pos hc
      have hcF' : c ∉ L'.filter (fun c => completesB b w c) := by
        intro hmem
        exact hcnotin (List.mem_of_mem_filter hmem)
      refine ⟨ih1.trans hfr.1, ih2.trans hfr.2.1, ih3.trans hfr.2.2.1,
        ih4.trans hfr.2.2.2, ?_, ?_, ?_, ?_, ?_, ?_, ?_, ?_, ?_⟩
      · rw [ih5]
        simp [hc]
      · intro x
        rw [ih6 x, hFc]
        by_cases hx1 : x ∈ L'.filter (fun c => completesB b w c)
        · rw [if_pos hx1, if_pos (List.mem_cons_of_mem c hx1)]
        · rw [if_neg hx1, ht', claimCell_cells]
          by_cases hx2 : x = c
          · rw [if_pos hx2, if_pos (by rw [hx2]; exact List.mem_cons_self _ _)]
          · rw [if_neg hx2, if_neg (by
              intro hmem
              rcases List.mem_cons.mp hmem with h | h
              · exact hx2 h
              · exact hx1 h)]
      · rw [ih7, ht', claimCell_score_self, tval_congr t w c hT, hFc]
        simp only [List.map_cons, List.sum_cons]
        ring
      · intro q hq
        rw [ih8 q hq, ht', claimCell_score_other p t c q hq]
      · rw [ih9, ht', claimCell_bonus_self, hA c (List.mem_cons_self c L'), hFc]
        by_cases hh : w.artifacts c = some .hourglass
        · rw [if_pos hh, List.filter_cons_of_pos (by simpa using hh)]
          simp only [List.length_cons]
          push_cast
          ring
        · rw [if_neg hh, List.filter_cons_of_neg (by simpa using hh)]
          ring
      · intro q hq
        rw [ih10 q hq, ht', claimCell_bonus_other p t c q hq]
      · intro x hx
        rw [hFc] at hx
        have hx1 : x ≠ c := fun h => hx (h ▸ List.mem_cons_self _ _)
        have hx2 : x ∉ L'.filter (fun c => completesB b w c) :=
          fun h => hx (List.mem_cons_of_mem c h)
        rw [ih11 x hx2, ht', claimCell_claimed_other p t c x hx1]
      · intro x hx
        rw [hFc] at hx
        rcases List.mem_cons.mp hx with hx1 | hx1
        · subst hx1
          rw [ih11 x hcF', ht', claimCell_claimed_self,
            hA x (List.mem_cons_self x L')]
          have : t.treasures x = w.treasures x := by rw [hT]
          rw [this]
        · have hxc : x ≠ c := ne_of_mem_of_not_mem (List.mem_of_mem_filter hx1) hcnotin
          rw [ih12 x hx1, ht', claimCell_claimed_other p t c x hxc]
      · intro q c' h
        rcases ih13 q c' h with h1 | h1
        · rcases claimCell_compass p t c q c' (ht' ▸ h1) with h2 | h2
          · exact Or.inl h2
          · rw [hFc]
            exact Or.inr (h2 ▸ List.mem_cons_self _ _)
        · rw [hFc]
          exact Or.inr (List.mem_cons_of_mem c h1)
    · rw [if_neg (by rw [hcomp]; exact hc)]
      have hC2 : ∀ x ∈ L', t.cells x = w.cells x :=
        fun x hx => hC x (List.mem_cons_of_mem c hx)
      have hA2 : ∀ x ∈ L', t.artifacts x = w.artifacts x :=
        fun x hx => hA x (List.mem_cons_of_mem c hx)
      obtain ⟨ih1, ih2, ih3, ih4, ih5, ih6, ih7, ih8, ih9, ih10, ih11, ih12, ih13⟩ :=
        ih t ex hN' hE hT hC2 hA2
      have hFc : (c :: L').filter (fun c => completesB b w c) =
          L'.filter (fun c => completesB b w c) :=
        List.filter_cons_of_neg (by simpa using hc)
      rw [hFc]
      refine ⟨ih1, ih2, ih3, ih4, ?_, ih6, ih7, ih8, ih9, ih10, ih11, ih12, ih13⟩
      rw [ih5]
      have hcf : completesB b w c = false := Bool.eq_false_iff.mpr hc
      simp [List.any_cons, hcf]

/-- The cells adjacent to `move` that a move by any player would complete:
unclaimed, and all bounding edges owned once `move` is marked. -/
def completedCells (b : Board) (s : GameState) (move : Edge) : List Cell :=
  (b.edge_cells move).filter (fun c => completesAfter b s move c)

theorem gauntletTick_eq_self (s : GameState) (p : Player)
    (h : s.gauntlet_available p = false) : gauntletTick s p = s := by
  unfold gauntletTick
  rw [if_neg]
  intro hcon
  rw [h] at hcon
  exact Bool.false_ne_true hcon.1

theorem gauntletTick_artifacts_mono (s : GameState) (p : Player) (x : Cell) :
    (gauntletTick s p).artifacts x = s.artifacts x ∨ (gauntletTick s p).artifacts x = none := by
  simp only [gauntletTick]
  split
  · split
    · split
      · rename_i c0 heq
        rcases eq_or_ne x c0 with h | h
        · exact Or.inr (by simp [upd, h])
        · exact Or.inl (by simp [upd, h])
      · exact Or.inl rfl
    · exact Or.inl rfl
  · exact Or.inl rfl

/-- The gauntlet-expiry tick (lines 145-155) pops the artifacts entry at
`gauntlet_cell player` exactly when the held gauntlet's timer runs out on
this move.  When that expiry does not hit cell `c`, the artifact sitting on
`c` survives to the completion loop.  In play the guard is automatic for a
cell still carrying an artifact, because the pickup of line 189 already
popped `artifacts[gauntlet_cell]`. -/
theorem gauntletTick_artifacts_spared (s : GameState) (p : Player) (c : Cell)
    (h : ¬(s.gauntlet_available p = true ∧ s.gauntlet_timer p = 1 ∧
      s.gauntlet_cell p = some c)) :
    (gauntletTick s p).artifacts c = s.artifacts c := by
  simp only [gauntletTick]
  split
  · rename_i h1
    split
    · rename_i h2
      split
      · rename_i c0 heq
        have hcc : c ≠ c0 := by
          intro he
          refine h ⟨h1.1, ?_, ?_⟩
          · have h12 := h1.2
            omega
          · rw [he]
            exact heq
        simp [upd, hcc]
      · rfl
    · rfl
  · rfl

/-- `apply_move` in terms of the loop result: the three exits of lines
196-208 (standard extra turn; banked bonus consumed; turn flips). -/
theorem apply_move_cases (b : Board) (s : GameState) (m : Edge) (p : Player) :
    ((moveLoopResult b s m p).2 = true →
      apply_move b s m p = ((moveLoopResult b s m p).1, true)) ∧
    ((moveLoopResult b s m p).2 = false →
      0 < (moveLoopResult b s m p).1.hourglass_bonus p →
      apply_move b s m p =
        ({ (moveLoopResult b s m p).1 with
            hourglass_bonus := upd (moveLoopResult b s m p).1.hourglass_bonus p
              ((moveLoopResult b s m p).1.hourglass_bonus p - 1) }, true)) ∧
    ((moveLoopResult b s m p).2 = false →
      ¬ 0 < (moveLoopResult b s m p).1.hourglass_bonus p →
      apply_move b s m p = ({ (moveLoopResult b s m p).1 with turn := 1 - p }, false)) := by
  simp only [apply_move]
  set r := moveLoopResult b s m p with hrdef
  refine ⟨?_, ?_, ?_⟩
  · intro h
    have hno1 : ¬(r.2 = false ∧ 0 < r.1.hourglass_bonus p) := by
      rw [h]
      rintro ⟨hcon, -⟩
      exact absurd hcon (by decide)
    have hno2 : ¬(r.2 = false) := by
      rw [h]
      decide
    rw [if_neg hno1, if_neg hno2]
    exact Prod.ext rfl h
  · intro h hb
    have hcond : r.2 = false ∧ 0 < r.1.hourglass_bonus p := ⟨h, hb⟩
    rw [if_pos hcond]
    rfl
  · intro h hb
    have hno1 : ¬(r.2 = false ∧ 0 < r.1.hourglass_bonus p) := fun hcon => hb hcon.2
    rw [if_neg hno1, if_pos h]
    exact Prod.ext rfl h

/-- Master characterisation of `apply_move`: everything the claims need,
phrased against the input state. -/
theorem apply_move_spec (b : Board) (s : GameState) (m : Edge) (p : Player)
    (hN : (b.edge_cells m).Nodup) :
    (∀ e, (apply_move b s m p).1.edges e = if e = m then (p : Int) else s.edges e) ∧
    (apply_move b s m p).1.treasures = s.treasures ∧
    (apply_move b s m p).1.last_move = some m ∧
    (∀ x, (apply_move b s m p).1.cells x =
      if x ∈ completedCells b s m then (p : Int) else s.cells x) ∧
    (apply_move b s m p).1.score p =
      s.score p + ((completedCells b s m).map (fun c => 1 + tval s c)).sum ∧
    (∀ q, q ≠ p → (apply_move b s m p).1.score q = s.score q) ∧
    ((apply_move b s m p).2 = true ↔
      (completedCells b s m ≠ [] ∨ 0 < s.hourglass_bonus p)) ∧
    (completedCells b s m ≠ [] →
      (apply_move b s m p).1.hourglass_bonus p =
        s.hourglass_bonus p + (((completedCells b s m).filter
          (fun c => decide ((gauntletTick s p).artifacts c = some .hourglass))).length : Int)) ∧
    (completedCells b s m = [] → 0 < s.hourglass_bonus p →
      (apply_move b s m p).1.hourglass_bonus p = s.hourglass_bonus p - 1 ∧
        (apply_move b s m p).2 = true) ∧
    (completedCells b s m = [] → s.hourglass_bonus p ≤ 0 →
      (apply_move b s m p).1.hourglass_bonus p = s.hourglass_bonus p ∧
        (apply_move b s m p).2 = false) ∧
    ((apply_move b s m p).2 = false → (apply_move b s m p).1.turn = 1 - p) ∧
    ((apply_move b s m p).2 = true → (apply_move b s m p).1.turn = s.turn) ∧
    (∀ x ∈ completedCells b s m, (apply_move b s m p).1.claimed_items x =
      claimedItemOf ((gauntletTick s p).artifacts x) (s.treasures x)
        ((gauntletTick s p).claimed_items x)) ∧
    (∀ q c', (apply_move b s m p).1.compass_cell q = some c' →
      s.compass_cell q = some c' ∨ c' ∈ completedCells b s m) := by
  have hs1fr := gauntletTick_frame s p
  set s1 := gauntletTick s p with hs1
  set s2 : GameState := markedState s m p with hs2
  have hs2form : s2 = { s1 with edges := upd s1.edges m (p : Int), last_move := some m } := rfl
  have hpred : ∀ c, completesB b s2 c = completesAfter b s m c := by
    intro c
    rw [hs2form, completesB_mark b s1 m p c]
    unfold completesAfter
    rw [hs1fr.1, hs1fr.2.1]
  obtain ⟨P1, P2, P3, P4, P5, P6, P7, P8, P9, P10, P11, P12, P13⟩ :=
    processCells_spec b p s2 (b.edge_cells m) s2 false hN rfl rfl
      (fun _ _ => rfl) (fun _ _ => rfl)
  have hRr : moveLoopResult b s m p = processCells b p (b.edge_cells m) (s2, false) := rfl
  set r := processCells b p (b.edge_cells m) (s2, false) with hrdef
  obtain ⟨hcase1, hcase2, hcase3⟩ := apply_move_cases b s m p
  rw [hRr] at hcase1 hcase2 hcase3
  have hfilt : (b.edge_cells m).filter (fun c => completesB b s2 c) = completedCells b s m := by
    unfold completedCells
    congr 1
    funext c
    exact hpred c
  have hany : ((b.edge_cells m).any fun c => completesB b s2 c) =
      ((b.edge_cells m).any fun c => completesAfter b s m c) := by
    congr 1
    funext c
    exact hpred c
  have hanyF : ((b.edge_cells m).any fun c => completesAfter b s m c) = true ↔
      completedCells b s m ≠ [] := by
    rw [List.any_eq_true]
    constructor
    · rintro ⟨c, hc, hcc⟩ hnil
      have : c ∈ completedCells b s m := by
        unfold completedCells
        rw [List.mem_filter]
        exact ⟨hc, hcc⟩
      rw [hnil] at this
      exact List.not_mem_nil c this
    · intro hne
      rcases List.exists_mem_of_ne_nil _ hne with ⟨c, hc⟩
      unfold completedCells at hc
      rw [List.mem_filter] at hc
      exact ⟨c, hc.1, hc.2⟩
  have hr2 : r.2 = ((b.edge_cells m).any fun c => completesAfter b s m c) := by
    rw [P5, hany]
    simp
  have hedges : ∀ e, r.1.edges e = if e = m then (p : Int) else s.edges e := by
    intro e
    rw [P1, hs2form]
    show upd s1.edges m (p : Int) e = _
    unfold upd
    rcases eq_or_ne e m with h | h
    · simp [h]
    · simp [h, congrFun hs1fr.2.1 e]
  have htre : r.1.treasures = s.treasures := by
    rw [P2]
    exact hs1fr.2.2.1
  have hcellsr : ∀ x, r.1.cells x = if x ∈ completedCells b s m then (p : Int) else s.cells x := by
    intro x
    rw [P6 x, hfilt]
    rcases Decidable.em (x ∈ completedCells b s m) with h | h
    · simp [h]
    · simp only [if_neg h]
      exact congrFun hs1fr.1 x
  have hscorep : r.1.score p =
      s.score p + ((completedCells b s m).map (fun c => 1 + tval s c)).sum := by
    have h1 : s2.score p = s.score p := congrFun hs1fr.2.2.2.2.1 p
    have h2 : ∀ c, tval s2 c = tval s c := fun c => tval_congr s2 s c hs1fr.2.2.1
    rw [P7, hfilt, h1]
    simp only [h2]
  have hscoreq : ∀ q, q ≠ p → r.1.score q = s.score q := by
    intro q hq
    rw [P8 q hq]
    exact congrFun hs1fr.2.2.2.2.1 q
  have hbonus : r.1.hourglass_bonus p = s.hourglass_bonus p +
      (((completedCells b s m).filter
        (fun c => decide (s1.artifacts c = some .hourglass))).length : Int) := by
    rw [P9, hfilt]
    congr 1
    exact congrFun hs1fr.2.2.2.2.2.2.2 p
  have hturnr : r.1.turn = s.turn := by
    rw [P3]
    exact hs1fr.2.2.2.1
  have hclaimed : ∀ x ∈ completedCells b s m, r.1.claimed_items x =
      claimedItemOf (s1.artifacts x) (s.treasures x) (s1.claimed_items x) := by
    intro x hx
    rw [hfilt] at P12
    rw [P12 x hx]
    have h1 : s2.treasures x = s.treasures x := congrFun hs1fr.2.2.1 x
    rw [h1]
    rfl
  have hcompassr : ∀ q c', r.1.compass_cell q = some c' →
      s.compass_cell q = some c' ∨ c' ∈ completedCells b s m := by
    intro q c' h
    rcases P13 q c' h with h1 | h1
    · left
      rw [← congrFun hs1fr.2.2.2.2.2.2.1 q]
      exact h1
    · right
      rw [← hfilt]
      exact h1
  rcases hAC : ((b.edge_cells m).any fun c => completesAfter b s m c) with _ | _
  · -- no cell completed
    have hFnil : completedCells b s m = [] := by
      by_contra hne
      have h2 := hanyF.mpr hne
      rw [hAC] at h2
      exact Bool.false_ne_true h2
    have hbonus0 : r.1.hourglass_bonus p = s.hourglass_bonus p := by
      rw [hbonus, hFnil]
      simp
    have hr2f : r.2 = false := by rw [hr2, hAC]
    by_cases hb : 0 < r.1.hourglass_bonus p
    · -- a banked bonus is consumed
      rw [hcase2 hr2f hb]
      have hbs : 0 < s.hourglass_bonus p := hbonus0 ▸ hb
      refine ⟨hedges, htre, by rw [P4, hs2form], hcellsr, hscorep, hscoreq, ?_, ?_, ?_, ?_,
        ?_, ?_, hclaimed, hcompassr⟩
      · exact ⟨fun _ => Or.inr hbs, fun _ => rfl⟩
      · intro h
        exact absurd hFnil h
      · intro _ _
        refine ⟨?_, rfl⟩
        show upd r.1.hourglass_bonus p (r.1.hourglass_bonus p - 1) p = _
        rw [upd_same, hbonus0]
      · intro _ hle
        exact absurd hbs (not_lt.mpr hle)
      · intro h
        exact absurd h (by simp : (true : Bool) ≠ false)
      · intro _
        exact hturnr
    · -- no completion, no banked bonus: the turn flips
      rw [hcase3 hr2f hb]
      have hbs : ¬ 0 < s.hourglass_bonus p := fun h => hb (hbonus0 ▸ h)
      refine ⟨hedges, htre, by rw [P4, hs2form], hcellsr, hscorep, hscoreq, ?_, ?_, ?_, ?_,
        ?_, ?_, hclaimed, hcompassr⟩
      · refine ⟨fun h => absurd h Bool.false_ne_true, ?_⟩
        rintro (h | h)
        · exact absurd hFnil h
        · exact absurd h hbs
      · intro h
        exact absurd hFnil h
      · intro _ h
        exact absurd h hbs
      · intro _ _
        exact ⟨hbonus0, rfl⟩
      · intro _
        rfl
      · intro h
        exact absurd h Bool.false_ne_true
  · -- at least one cell completed: standard extra turn
    have hFne : completedCells b s m ≠ [] := hanyF.mp hAC
    have hr2t : r.2 = true := by rw [hr2, hAC]
    rw [hcase1 hr2t]
    refine ⟨hedges, htre, by rw [P4, hs2form], hcellsr, hscorep, hscoreq, ?_, ?_, ?_, ?_,
      ?_, ?_, hclaimed, hcompassr⟩
    · exact ⟨fun _ => Or.inl hFne, fun _ => rfl⟩
    · intro _
      exact hbonus
    · intro h _
      exact absurd h hFne
    · intro h _
      exact absurd h hFne
    · intro h
      exact absurd h (by simp : (true : Bool) ≠ false)
    · intro _
      exact hturnr

theorem processCells_edges (b : Board) (p : Player) :
    ∀ (cs : List Cell) (acc : GameState × Bool),
      (processCells b p cs acc).1.edges = acc.1.edges := by
  intro cs
  induction cs with
  | nil => intro acc; rfl
  | cons c cs ih =>
    intro acc
    rw [processCells_cons]
    rcases hc : completesB b acc.1 c
    · rw [if_neg (by decide : ¬((false : Bool) = true))]
      exact ih acc
    · rw [if_pos (rfl : (true : Bool) = true)]
      rw [ih]
      exact (claimCell_frame p acc.1 c).1

/-- The in-loop completion test on the marked state is the pre-move
completion condition. -/
theorem completesB_markedState (b : Board) (s : GameState) (m : Edge) (p : Player)
    (c : Cell) : completesB b (markedState s m p) c = completesAfter b s m c := by
  have hfr := gauntletTick_frame s p
  have h1 : completesB b (markedState s m p) c = completesAfter b (gauntletTick s p) m c :=
    completesB_mark b (gauntletTick s p) m p c
  rw [h1]
  unfold completesAfter
  rw [hfr.1, hfr.2.1]

theorem processCells_singleton (b : Board) (p : Player) (c : Cell)
    (acc : GameState × Bool) :
    processCells b p [c] acc =
      if completesB b acc.1 c then (claimCell p acc.1 c, true) else acc := rfl

/-- When no cell of `L` passes the completion test (taken against a
reference state `w` that agrees with the accumulator on edges and on the
cells of `L`), the completion loop is the identity. -/
theorem processCells_of_filter_nil (b : Board) (p : Player) (w : GameState) :
    ∀ (L : List Cell) (t : GameState) (ex : Bool),
      t.edges = w.edges →
      (∀ x ∈ L, t.cells x = w.cells x) →
      L.filter (fun d => completesB b w d) = [] →
      processCells b p L (t, ex) = (t, ex) := by
  intro L
  induction L with
  | nil =>
    intro t ex _ _ _
    rfl
  | cons d L' ih =>
    intro t ex hE hC hF
    have hd : completesB b w d = false := by
      rcases hdb : completesB b w d
      · rfl
      · rw [List.filter_cons_of_pos hdb] at hF
        exact absurd hF (List.cons_ne_nil _ _)
    have hF' : L'.filter (fun x => completesB b w x) = [] := by
      rw [List.filter_cons_of_neg (by rw [hd]; exact Bool.false_ne_true)] at hF
      exact hF
    have hdt : completesB b (t, ex).1 d = false := by
      show completesB b t d = false
      unfold completesB
      unfold completesB at hd
      rw [hC d (List.mem_cons_self d L'), hE]
      exact hd
    rw [processCells_cons, if_neg (by rw [hdt]; exact Bool.false_ne_true)]
    exact ih t ex hE (fun x hx => hC x (List.mem_cons_of_mem d hx)) hF'

/-- When exactly one cell `c` of `L` passes the completion test, the
completion loop claims `c` and nothing else, and reports the extra turn. -/
theorem processCells_of_filter_singleton (b : Board) (p : Player) (w : GameState) :
    ∀ (L : List Cell) (t : GameState) (ex : Bool) (c : Cell),
      t.edges = w.edges →
      (∀ x ∈ L, t.cells x = w.cells x) →
      L.filter (fun d => completesB b w d) = [c] →
      processCells b p L (t, ex) = (claimCell p t c, true) := by
  intro L
  induction L with
  | nil =>
    intro t ex c _ _ hF
    exact absurd hF (fun h => List.noConfusion h)
  | cons d L' ih =>
    intro t ex c hE hC hF
    have hcompd : completesB b t d = completesB b w d := by
      unfold completesB
      rw [hC d (List.mem_cons_self d L'), hE]
    rcases hd : completesB b w d
    · have hF' : L'.filter (fun x => completesB b w x) = [c] := by
        rw [List.filter_cons_of_neg (by rw [hd]; exact Bool.false_ne_true)] at hF
        exact hF
      have hdt : completesB b (t, ex).1 d = false := hcompd.trans hd
      rw [processCells_cons, if_neg (by rw [hdt]; exact Bool.false_ne_true)]
      exact ih t ex c hE (fun x hx => hC x (List.mem_cons_of_mem d hx)) hF'
    · rw [List.filter_cons_of_pos hd] at hF
      injection hF with hdc hnil
      subst hdc
      have hdt : completesB b (t, ex).1 d = true := hcompd.trans hd
      rw [processCells_cons, if_pos hdt]
      refine processCells_of_filter_nil b p w L' (claimCell p t d) true
        ((claimCell_frame p t d).1.trans hE) ?_ hnil
      intro x hx
      have hxd : x ≠ d := by
        intro he
        subst he
        have hmem : x ∈ L'.filter (fun y => completesB b w y) :=
          List.mem_filter.mpr ⟨hx, hd⟩
        rw [hnil] at hmem
        exact List.not_mem_nil x hmem
      rw [claimCell_cells, if_neg hxd]
      exact hC x (List.mem_cons_of_mem d hx)

theorem claimCell_gauntlet_effect (p : Player) (t : GameState) (c : Cell)
    (ha : t.artifacts c = some .gauntlet) :
    (claimCell p t c).gauntlet_available p = true ∧
    (claimCell p t c).gauntlet_timer p = 5 ∧
    (claimCell p t c).gauntlet_cell p = some c ∧
    (claimCell p t c).artifacts c = none := by
  rcases h1 : t.treasures c with _ | tr
  all_goals simp [claimCell, h1, ha, upd]

theorem claimCell_compass_effect (p : Player) (t : GameState) (c : Cell)
    (ha : t.artifacts c = some .compass) :
    (claimCell p t c).compass_available p = true ∧
    (claimCell p t c).compass_cell p = some c := by
  rcases h1 : t.treasures c with _ | tr
  all_goals simp [claimCell, h1, ha, upd]

theorem ne_one_sub (p : Player) : p ≠ 1 - p := by
  rcases p with _ | q
  · decide
  · intro h
    have h2 : q + 1 = 1 - (q + 1) := h
    omega

/-! ## Claim C2: behaviour of `apply_move` on an already-owned edge -/

theorem apply_move_edges_all (b : Board) (s : GameState) (m : Edge) (p : Player) :
    ∀ e, (apply_move b s m p).1.edges e = (markedState s m p).edges e := by
  intro e
  obtain ⟨hcase1, hcase2, hcase3⟩ := apply_move_cases b s m p
  have hml : (moveLoopResult b s m p).1.edges = (markedState s m p).edges :=
    processCells_edges b p (b.edge_cells m) (markedState s m p, false)
  rcases h2 : (moveLoopResult b s m p).2
  · by_cases hb : 0 < (moveLoopResult b s m p).1.hourglass_bonus p
    · rw [hcase2 h2 hb]
      exact congrFun hml e
    · rw [hcase3 h2 hb]
      exact congrFun hml e
  · rw [hcase1 h2]
    exact congrFun hml e

/-- C2 (amended): `apply_move` performs no ownership validation at all: it
unconditionally overwrites the played edge's owner with `player`, for
already-owned edges just as for unclaimed ones; no `InvalidMove` error
exists anywhere in the engine. -/
theorem claim_C2 (b : Board) (s : GameState) (m : Edge) (p : Player) :
    (apply_move b s m p).1.edges m = (p : Int) := by
  rw [apply_move_edges_all b s m p m]
  show upd (gauntletTick s p).edges m (p : Int) m = (p : Int)
  exact upd_same _ _ _

/-- C2 (counterexample to the claim as stated): on `cexBoard`, edge 1 is
owned by player 0 in `cexState`, yet `apply_move` neither fails nor
no-ops: it silently hands the edge to player 1. -/
theorem claim_C2_counterexample :
    cexState.edges 1 = 0 ∧ cexState.edges 1 ≠ -1 ∧
    (apply_move cexBoard cexState 1 1).1.edges 1 = 1 ∧
    (apply_move cexBoard cexState 1 1).1.edges 1 ≠ cexState.edges 1 := by
  refine ⟨rfl, by decide, ?_, ?_⟩
  · rw [claim_C2 cexBoard cexState 1 1]
    rfl
  · rw [claim_C2 cexBoard cexState 1 1]
    decide

/-! ## Claim C3: copy-on-write versus in-place mutation -/

/-- A state in which player 0 holds a usable gauntlet and player 1 has a
recorded treasure gain of 5 but only 2 points. -/
def gState : GameState where
  cells := fun c => if c = 0 then 0 else -1
  edges := fun _ => 0
  turn := 0
  score := fun q => if q = 1 then 2 else 0
  last_move := none
  treasures := fun _ => none
  artifacts := fun _ => none
  claimed_items := fun _ => none
  gauntlet_available := fun q => q = 0
  gauntlet_timer := fun q => if q = 0 then 3 else 0
  gauntlet_cell := fun q => if q = 0 then some 0 else none
  last_treasure_value := fun q => if q = 1 then 5 else 0
  compass_available := fun _ => false
  compass_cell := fun _ => none
  hourglass_bonus := fun _ => 0

/-- C3 (amended): only `apply_move` is copy-on-write (it deep-copies and
never touches the caller's argument); `use_gauntlet` and `use_compass`
write into the argument itself and return it, so after those calls the
caller's argument holds the returned value rather than its old one. -/
theorem claim_C3 :
    (∀ (b : Board) (s : GameState) (m : Edge) (p : Player),
      apply_move_argAfter b s m p = s) ∧
    (∀ (s : GameState) (p : Player) (a : Option Int),
      use_gauntlet_argAfter s p a = use_gauntlet s p a) ∧
    (∀ (s : GameState) (p : Player) (c : Cell),
      use_compass_argAfter s p c = use_compass s p c) :=
  ⟨fun _ _ _ _ => rfl, fun _ _ _ => rfl, fun _ _ _ => rfl⟩

/-- C3 (counterexample to the claim as stated): after
`use_gauntlet(state, 0)` the caller's `state` argument no longer holds its
old value — the source mutated it in place (here its scores changed), so
the Move Engine is not copy-on-write on all three operations. -/
theorem claim_C3_counterexample : use_gauntlet_argAfter gState 0 none ≠ gState := by
  intro h
  have h2 := congrArg (fun st => st.score 1) h
  simp only at h2
  exact absurd h2 (by decide)

/-! ## Claim C4: cell completion awards ownership, points and records -/

/-- C4: every adjacent cell that was unclaimed and has all 6 edges owned
once the edge is placed becomes owned by `player`; the mover's score grows
by 1 base point plus treasure value per such cell; the treasure is recorded
in `claimed_items` (when no artifact overwrites it, see C10); and the
extra-turn flag is true whenever at least one cell was completed. -/
theorem claim_C4 (b : Board) (s : GameState) (m : Edge) (p : Player)
    (hN : (b.edge_cells m).Nodup) (hm : s.edges m = -1) :
    (∀ c ∈ completedCells b s m,
      (apply_move b s m p).1.cells c = (p : Int) ∧
      (apply_move b s m p).2 = true ∧
      (s.artifacts c = none → ∀ t, s.treasures c = some t →
        (apply_move b s m p).1.claimed_items c = some (.treasure t))) ∧
    (apply_move b s m p).1.score p =
      s.score p + ((completedCells b s m).map (fun c => 1 + tval s c)).sum := by
  obtain ⟨A1, A2, A3, A4, A5, A6, A7, A8, A9, A10, A11, A12, A13, A14⟩ :=
    apply_move_spec b s m p hN
  refine ⟨?_, A5⟩
  intro c hc
  refine ⟨?_, ?_, ?_⟩
  · rw [A4 c, if_pos hc]
  · refine A7.mpr (Or.inl ?_)
    intro hnil
    rw [hnil] at hc
    exact List.not_mem_nil c hc
  · intro hart t ht
    rw [A13 c hc]
    have h1 : (gauntletTick s p).artifacts c = none := by
      rcases gauntletTick_artifacts_mono s p c with h | h
      · rw [h, hart]
      · exact h
    rw [h1, ht]
    rfl

/-- Board position used for the C4/C5/C8 witnesses: in `cexState`, playing
edge 0 completes cell 1 (its other five edges 6-10 are all owned). -/
theorem claim_C4_witness :
    (cexBoard.edge_cells 0).Nodup ∧ cexState.edges 0 = -1 ∧
    (1 : Cell) ∈ completedCells cexBoard cexState 0 ∧
    (apply_move cexBoard cexState 0 0).1.cells 1 = ((0 : Player) : Int) ∧
    (apply_move cexBoard cexState 0 0).2 = true ∧
    (apply_move cexBoard cexState 0 0).1.score 0 =
      cexState.score 0 +
        ((completedCells cexBoard cexState 0).map (fun c => 1 + tval cexState c)).sum := by
  have hmem : (1 : Cell) ∈ completedCells cexBoard cexState 0 := by decide
  have h := claim_C4 cexBoard cexState 0 0 (by decide) (by decide)
  obtain ⟨h1, h2, _⟩ := h.1 1 hmem
  exact ⟨by decide, by decide, hmem, h1, h2, h.2⟩

/-! ## Claim C5: hourglass banking and consumption -/

/-- C5: a move whose single completed cell carries an hourglass earns the
standard extra turn and banks exactly one bonus (no consumption); a banked
bonus is consumed (decrement by 1, extra turn reported) exactly on a move
that completes nothing while a bonus is banked; a completing move never
consumes a banked bonus.  The only guard on the banking conjunct is that
the gauntlet-expiry tick of lines 145-155 does not fire on the completed
cell itself (it would pop the artifact before the completion loop runs,
lines 148-154); in play that guard is automatic, because the pickup of
line 189 already popped the artifact at `gauntlet_cell`. -/
theorem claim_C5 (b : Board) (s : GameState) (m : Edge) (p : Player)
    (hN : (b.edge_cells m).Nodup) :
    (∀ c, completedCells b s m = [c] → s.artifacts c = some .hourglass →
      ¬(s.gauntlet_available p = true ∧ s.gauntlet_timer p = 1 ∧
        s.gauntlet_cell p = some c) →
      (apply_move b s m p).2 = true ∧
      (apply_move b s m p).1.hourglass_bonus p = s.hourglass_bonus p + 1) ∧
    (completedCells b s m = [] → 0 < s.hourglass_bonus p →
      (apply_move b s m p).2 = true ∧
      (apply_move b s m p).1.hourglass_bonus p = s.hourglass_bonus p - 1) ∧
    (completedCells b s m = [] → s.hourglass_bonus p ≤ 0 →
      (apply_move b s m p).2 = false ∧
      (apply_move b s m p).1.hourglass_bonus p = s.hourglass_bonus p) ∧
    (completedCells b s m ≠ [] →
      s.hourglass_bonus p ≤ (apply_move b s m p).1.hourglass_bonus p) := by
  obtain ⟨A1, A2, A3, A4, A5, A6, A7, A8, A9, A10, A11, A12, A13, A14⟩ :=
    apply_move_spec b s m p hN
  refine ⟨?_, ?_, ?_, ?_⟩
  · intro c hFc ha hguard
    have hne : completedCells b s m ≠ [] := by
      rw [hFc]
      exact List.cons_ne_nil c []
    refine ⟨A7.mpr (Or.inl hne), ?_⟩
    rw [A8 hne, hFc]
    have hart : (gauntletTick s p).artifacts c = some .hourglass := by
      rw [gauntletTick_artifacts_spared s p c hguard]
      exact ha
    have hlen : ([c].filter (fun x => decide ((gauntletTick s p).artifacts x = some Artifact.hourglass))).length = 1 := by
      simp [hart]
    rw [hlen]
    norm_num
  · intro hnil hb
    obtain ⟨h1, h2⟩ := A9 hnil hb
    exact ⟨h2, h1⟩
  · intro hnil hb
    obtain ⟨h1, h2⟩ := A10 hnil hb
    exact ⟨h2, h1⟩
  · intro hne
    rw [A8 hne]
    have h0 : (0 : Int) ≤
        (((completedCells b s m).filter
          (fun c => decide ((gauntletTick s p).artifacts c = some Artifact.hourglass))).length : Int) :=
      Int.natCast_nonneg _
    omega

/-- A copy of `cexState` that puts an hourglass on cell 1 so that completing
it banks a bonus. -/
def hgState : GameState :=
  { cexState with artifacts := fun c => if c = 1 then some .hourglass else none }

/-- A copy of `cexState` that banks one hourglass bonus for player 0; playing
edge 2 completes nothing, so the bonus is consumed. -/
def consState : GameState :=
  { cexState with hourglass_bonus := fun q => if q = 0 then 1 else 0 }

theorem claim_C5_witness :
    ((cexBoard.edge_cells 0).Nodup ∧
      completedCells cexBoard hgState 0 = [1] ∧ hgState.artifacts 1 = some .hourglass ∧
      ¬(hgState.gauntlet_available 0 = true ∧ hgState.gauntlet_timer 0 = 1 ∧
        hgState.gauntlet_cell 0 = some 1) ∧
      (apply_move cexBoard hgState 0 0).2 = true ∧
      (apply_move cexBoard hgState 0 0).1.hourglass_bonus 0 =
        hgState.hourglass_bonus 0 + 1) ∧
    ((cexBoard.edge_cells 2).Nodup ∧
      completedCells cexBoard consState 2 = [] ∧ 0 < consState.hourglass_bonus 0 ∧
      (apply_move cexBoard consState 2 0).2 = true ∧
      (apply_move cexBoard consState 2 0).1.hourglass_bonus 0 =
        consState.hourglass_bonus 0 - 1) := by
  constructor
  · have h := (claim_C5 cexBoard hgState 0 0 (by decide)).1 1 (by decide) (by decide) (by decide)
    exact ⟨by decide, by decide, by decide, by decide, h.1, h.2⟩
  · have h := (claim_C5 cexBoard consState 2 0 (by decide)).2.1 (by decide) (by decide)
    exact ⟨by decide, by decide, by decide, h.1, h.2⟩

/-! ## Claim C8: turn alternation -/

/-- C8: with `player` equal to the side to move, the returned `turn` points
at the other player exactly when `extra_turn` is false, and at the same
player whenever `extra_turn` is true (completion-earned or bonus-earned
alike). -/
theorem claim_C8 (b : Board) (s : GameState) (m : Edge) (p : Player)
    (hN : (b.edge_cells m).Nodup) (hp : p = s.turn) (hm : s.edges m = -1) :
    ((apply_move b s m p).2 = false → (apply_move b s m p).1.turn = 1 - p) ∧
    ((apply_move b s m p).2 = true → (apply_move b s m p).1.turn = p) := by
  obtain ⟨A1, A2, A3, A4, A5, A6, A7, A8, A9, A10, A11, A12, A13, A14⟩ :=
    apply_move_spec b s m p hN
  exact ⟨A11, fun h => (A12 h).trans hp.symm⟩

theorem claim_C8_witness :
    ((cexBoard.edge_cells 2).Nodup ∧ (0 : Player) = cexState.turn ∧
      cexState.edges 2 = -1 ∧ (apply_move cexBoard cexState 2 0).2 = false ∧
      (apply_move cexBoard cexState 2 0).1.turn = 1 - 0) ∧
    ((cexBoard.edge_cells 0).Nodup ∧ (0 : Player) = cexState.turn ∧
      cexState.edges 0 = -1 ∧ (apply_move cexBoard cexState 0 0).2 = true ∧
      (apply_move cexBoard cexState 0 0).1.turn = 0) := by
  constructor
  · have hext : (apply_move cexBoard cexState 2 0).2 = false := by decide
    have h := (claim_C8 cexBoard cexState 2 0 (by decide) (by decide) (by decide)).1 hext
    exact ⟨by decide, by decide, by decide, hext, h⟩
  · have hext : (apply_move cexBoard cexState 0 0).2 = true := by decide
    have h := (claim_C8 cexBoard cexState 0 0 (by decide) (by decide) (by decide)).2 hext
    exact ⟨by decide, by decide, by decide, hext, h⟩

/-! ## Claim C10: treasure and artifact on the same completed cell -/

/-- C10: when the completed cell sits in both the treasures and the
artifacts map, both effects are granted on the same completion (the two
checks of lines 169 and 177 are independent `if`s): the score gains the
base point plus the treasure value, the artifact's pickup effect is
applied, and `claimed_items[cell]` ends up holding the artifact, having
overwritten the treasure record of line 173 at line 179.  `hF` says the
move completes exactly the cell `c` (boundary or shared edge alike); the
only other guard is that the gauntlet-expiry tick of lines 145-155 does
not pop the artifact off `c` itself before the completion loop runs —
automatic in play, since the pickup of line 189 already popped the
artifact at `gauntlet_cell`. -/
theorem claim_C10 (b : Board) (s : GameState) (m : Edge) (p : Player) (c : Cell)
    (t : Treasure) (a : Artifact)
    (hF : completedCells b s m = [c])
    (ht : s.treasures c = some t) (ha : s.artifacts c = some a)
    (hguard : ¬(s.gauntlet_available p = true ∧ s.gauntlet_timer p = 1 ∧
      s.gauntlet_cell p = some c)) :
    (apply_move b s m p).1.claimed_items c = some (.artifact a) ∧
    (apply_move b s m p).1.score p = s.score p + 1 + TREASURES t ∧
    (a = .hourglass →
      (apply_move b s m p).1.hourglass_bonus p = s.hourglass_bonus p + 1) ∧
    (a = .gauntlet →
      (apply_move b s m p).1.gauntlet_available p = true ∧
      (apply_move b s m p).1.gauntlet_timer p = 5 ∧
      (apply_move b s m p).1.gauntlet_cell p = some c ∧
      (apply_move b s m p).1.artifacts c = none) ∧
    (a = .compass →
      (apply_move b s m p).1.compass_available p = true ∧
      (apply_move b s m p).1.compass_cell p = some c) := by
  have hsA : (markedState s m p).artifacts c = some a := by
    show (gauntletTick s p).artifacts c = some a
    rw [gauntletTick_artifacts_spared s p c hguard]
    exact ha
  have hsT : (markedState s m p).treasures c = some t := by
    show (gauntletTick s p).treasures c = some t
    rw [(gauntletTick_frame s p).2.2.1]
    exact ht
  have hsS : (markedState s m p).score p = s.score p := by
    show (gauntletTick s p).score p = s.score p
    rw [(gauntletTick_frame s p).2.2.2.2.1]
  have hsB : (markedState s m p).hourglass_bonus p = s.hourglass_bonus p := by
    show (gauntletTick s p).hourglass_bonus p = s.hourglass_bonus p
    rw [(gauntletTick_frame s p).2.2.2.2.2.2.2]
  have hfilt : (b.edge_cells m).filter (fun d => completesB b (markedState s m p) d)
      = [c] := by
    have h2 : (b.edge_cells m).filter (fun d => completesB b (markedState s m p) d)
        = completedCells b s m := by
      unfold completedCells
      congr 1
      funext d
      exact completesB_markedState b s m p d
    rw [h2, hF]
  have hml : moveLoopResult b s m p = (claimCell p (markedState s m p) c, true) := by
    unfold moveLoopResult
    exact processCells_of_filter_singleton b p (markedState s m p) (b.edge_cells m)
      (markedState s m p) false c rfl (fun _ _ => rfl) hfilt
  obtain ⟨hcase1, _, _⟩ := apply_move_cases b s m p
  have hr2 : (moveLoopResult b s m p).2 = true := by rw [hml]
  have happ : apply_move b s m p = ((moveLoopResult b s m p).1, true) := hcase1 hr2
  rw [happ, hml]
  refine ⟨?_, ?_, ?_, ?_, ?_⟩
  · show (claimCell p (markedState s m p) c).claimed_items c = some (.artifact a)
    rw [claimCell_claimed_self, hsA]
    rfl
  · show (claimCell p (markedState s m p) c).score p = s.score p + 1 + TREASURES t
    rw [claimCell_score_self, hsS]
    have h2 : tval (markedState s m p) c = TREASURES t := by
      unfold tval
      rw [hsT]
    rw [h2]
  · intro hh
    subst hh
    show (claimCell p (markedState s m p) c).hourglass_bonus p = s.hourglass_bonus p + 1
    rw [claimCell_bonus_self, hsB, if_pos hsA]
  · intro hh
    subst hh
    exact claimCell_gauntlet_effect p (markedState s m p) c hsA
  · intro hh
    subst hh
    exact claimCell_compass_effect p (markedState s m p) c hsA

/-- A copy of `cexState` that puts a gold treasure and a compass on cell 1
and leaves edge 6 as the last unclaimed edge of cell 1, so that playing
edge 6 completes exactly cell 1. -/
def bothState : GameState :=
  { cexState with
    edges := fun e => if e = 6 then -1 else 0
    treasures := fun c => if c = 1 then some .gold else none
    artifacts := fun c => if c = 1 then some .compass else none }

theorem claim_C10_witness :
    completedCells cexBoard bothState 6 = [1] ∧
    bothState.treasures 1 = some .gold ∧ bothState.artifacts 1 = some .compass ∧
    ¬(bothState.gauntlet_available 0 = true ∧ bothState.gauntlet_timer 0 = 1 ∧
      bothState.gauntlet_cell 0 = some 1) ∧
    (apply_move cexBoard bothState 6 0).1.claimed_items 1 = some (.artifact .compass) ∧
    (apply_move cexBoard bothState 6 0).1.score 0 =
      bothState.score 0 + 1 + TREASURES .gold ∧
    (apply_move cexBoard bothState 6 0).1.compass_available 0 = true ∧
    (apply_move cexBoard bothState 6 0).1.compass_cell 0 = some 1 := by
  have h := claim_C10 cexBoard bothState 6 0 1 .gold .compass (by decide)
    (by decide) (by decide) (by decide)
  obtain ⟨h1, h2, _, _, h5⟩ := h
  obtain ⟨h5a, h5b⟩ := h5 rfl
  exact ⟨by decide, by decide, by decide, by decide, h1, h2, h5a, h5b⟩

/-! ## Claim C6: the gauntlet steal -/

/-- C6: `use_gauntlet` with no requested amount is the identity when the
player holds no available gauntlet or the opponent's recorded last treasure
value is `≤ 0`; otherwise it moves exactly
`min(last treasure value, opponent score)` from the opponent to the player
(total preserved, opponent never driven negative) and consumes the
gauntlet. -/
theorem claim_C6 (s : GameState) (p : Player) :
    (s.gauntlet_available p = false → use_gauntlet s p none = s) ∧
    (s.last_treasure_value (1 - p) ≤ 0 → use_gauntlet s p none = s) ∧
    (s.gauntlet_available p = true → 0 < s.last_treasure_value (1 - p) →
      ((use_gauntlet s p none).score (1 - p) =
        s.score (1 - p) - min (s.last_treasure_value (1 - p)) (s.score (1 - p)) ∧
       (use_gauntlet s p none).score p =
        s.score p + min (s.last_treasure_value (1 - p)) (s.score (1 - p)) ∧
       (use_gauntlet s p none).score p + (use_gauntlet s p none).score (1 - p) =
        s.score p + s.score (1 - p) ∧
       (0 ≤ s.score (1 - p) → 0 ≤ (use_gauntlet s p none).score (1 - p)) ∧
       (use_gauntlet s p none).gauntlet_available p = false ∧
       (use_gauntlet s p none).gauntlet_timer p = 0 ∧
       (use_gauntlet s p none).gauntlet_cell p = none)) := by
  have hne : p ≠ 1 - p := ne_one_sub p
  have hne2 : ¬(1 - p = p) := fun h => hne h.symm
  refine ⟨?_, ?_, ?_⟩
  · intro h
    unfold use_gauntlet
    rw [if_pos h]
  · intro h
    unfold use_gauntlet
    by_cases hav : s.gauntlet_available p = false
    · rw [if_pos hav]
    · rw [if_neg hav, if_pos h]
  · intro hav hlt
    have hav2 : ¬(s.gauntlet_available p = false) := by
      rw [hav]
      decide
    have hlt2 : ¬(s.last_treasure_value (1 - p) ≤ 0) := not_le.mpr hlt
    have hminid : min (s.last_treasure_value (1 - p))
        (min (s.last_treasure_value (1 - p)) (s.score (1 - p))) =
        min (s.last_treasure_value (1 - p)) (s.score (1 - p)) := by
      rw [← min_assoc, min_self]
    have hmle := min_le_right (s.last_treasure_value (1 - p)) (s.score (1 - p))
    rcases hgc : s.gauntlet_cell p with _ | c0
    all_goals refine ⟨?_, ?_, ?_, ?_, ?_, ?_, ?_⟩
    all_goals try intro h0
    all_goals simp [use_gauntlet, hav2, hlt2, hgc, upd, hne, hne2, hminid]

theorem claim_C6_witness :
    gState.gauntlet_available 0 = true ∧ 0 < gState.last_treasure_value 1 ∧
    (use_gauntlet gState 0 none).score 1 = 0 ∧
    (use_gauntlet gState 0 none).score 0 = 2 ∧
    (use_gauntlet gState 0 none).score 0 + (use_gauntlet gState 0 none).score 1 =
      gState.score 0 + gState.score 1 ∧
    (use_gauntlet gState 0 none).gauntlet_available 0 = false ∧
    (use_gauntlet gState 0 none).gauntlet_timer 0 = 0 ∧
    (use_gauntlet gState 0 none).gauntlet_cell 0 = none := by
  have h := (claim_C6 gState 0).2.2 (by decide) (by decide)
  refine ⟨by decide, by decide, ?_, ?_, h.2.2.1, h.2.2.2.2.1, h.2.2.2.2.2.1, h.2.2.2.2.2.2⟩
  · rw [h.1]
    decide
  · rw [h.2.1]
    decide

/-! ## Claim C7: the completion invariant over reachable states -/

theorem use_gauntlet_frame (s : GameState) (p : Player) (amt : Option Int) :
    (use_gauntlet s p amt).cells = s.cells ∧ (use_gauntlet s p amt).edges = s.edges ∧
    (use_gauntlet s p amt).compass_cell = s.compass_cell := by
  simp only [use_gauntlet]
  repeat' split
  all_goals exact ⟨rfl, rfl, rfl⟩

/-- `use_compass` either returns its input unchanged (missing compass,
missing source, target not opponent-owned) or swaps the ownership of the
recorded source cell and the target cell, leaving edges alone and clearing
the player's compass pointer. -/
theorem use_compass_spec (s : GameState) (p : Player) (tc : Cell) :
    use_compass s p tc = s ∨
    ∃ source, s.compass_cell p = some source ∧
      s.cells tc = ((1 - p : Player) : Int) ∧
      (use_compass s p tc).edges = s.edges ∧
      (∀ x, (use_compass s p tc).cells x =
        if x = tc then (p : Int)
        else if x = source then ((1 - p : Player) : Int) else s.cells x) ∧
      (∀ q c', (use_compass s p tc).compass_cell q = some c' →
        s.compass_cell q = some c') := by
  rcases h0 : s.compass_cell p with _ | source
  · left
    simp only [use_compass, h0]
  · by_cases hav : s.compass_available p = false
    · left
      simp only [use_compass, h0, if_pos hav]
    · by_cases htc : s.cells tc ≠ ((1 - p : Player) : Int)
      · left
        simp only [use_compass, h0, if_neg hav, if_pos htc]
      · have htcOwn : s.cells tc = ((1 - p : Player) : Int) := not_not.mp htc
        right
        refine ⟨source, rfl, htcOwn, ?_, ?_, ?_⟩
        · simp only [use_compass, h0, if_neg hav, if_neg htc]
          rcases h1 : s.treasures source with _ | t1 <;>
            rcases h2 : s.treasures tc with _ | t2 <;> simp [h1, h2]
        · intro x
          simp only [use_compass, h0, if_neg hav, if_neg htc]
          rcases h1 : s.treasures source with _ | t1 <;>
            rcases h2 : s.treasures tc with _ | t2 <;>
            simp only [h1, h2] <;>
            (show upd (upd s.cells source ((1 - p : Player) : Int)) tc ((p : Player) : Int) x = _) <;>
            (unfold upd) <;>
            (by_cases hx1 : x = tc <;> by_cases hx2 : x = source <;> simp [hx1, hx2])
        · intro q c' h
          simp only [use_compass, h0, if_neg hav, if_neg htc] at h
          rcases h1 : s.treasures source with _ | t1 <;>
            rcases h2 : s.treasures tc with _ | t2 <;>
            simp only [h1, h2] at h <;>
            [skip; skip; skip; skip] <;>
            (by_cases hq : q = p
             · rw [show (upd s.compass_cell p none) q = none from by simp [upd, hq]] at h
               exact absurd h (by simp)
             · rw [upd_other s.compass_cell p none q hq] at h
               exact h)

/-- The claimed invariant of the spec. -/
def Inv (b : Board) (s : GameState) : Prop :=
  ∀ c ∈ b.cells, (s.cells c ≠ -1 ↔ ∀ e ∈ b.cell_edges c, s.edges e ≠ -1)

/-- Auxiliary strengthening: any recorded compass source cell is owned
(established at pickup, preserved because cells never revert to
unclaimed). -/
def AuxInv (s : GameState) : Prop :=
  ∀ q c, s.compass_cell q = some c → s.cells c ≠ -1

/-- Well-formedness of the incidence structure, as built by `init_state`:
distinct edges, every cell bounded by at least one edge (six, in fact),
incidence consistency, and no duplicate cells on an edge. -/
def WFBoard (b : Board) : Prop :=
  b.edges.Nodup ∧ (∀ c ∈ b.cells, b.cell_edges c ≠ []) ∧
    (∀ c ∈ b.cells, ∀ e ∈ b.cell_edges c, c ∈ b.edge_cells e) ∧
    (∀ e ∈ b.edges, (b.edge_cells e).Nodup)

/-- States reachable from the freshly built board by Move Engine calls
(`apply_move` on a board edge by either player, `use_gauntlet`,
`use_compass`). -/
inductive Reachable (b : Board) : GameState → Prop
  | init (tre : Cell → Option Treasure) (art : Cell → Option Artifact) :
      Reachable b (init_state tre art)
  | move (s : GameState) (m : Edge) (p : Player) (hm : m ∈ b.edges)
      (h : Reachable b s) : Reachable b (apply_move b s m p).1
  | gauntlet (s : GameState) (p : Player) (amt : Option Int)
      (h : Reachable b s) : Reachable b (use_gauntlet s p amt)
  | compass (s : GameState) (p : Player) (tc : Cell)
      (h : Reachable b s) : Reachable b (use_compass s p tc)

theorem reachable_inv (b : Board) (hWF : WFBoard b) :
    ∀ s, Reachable b s → Inv b s ∧ AuxInv s := by
  intro s0 hreach
  induction hreach with
  | init tre art =>
    constructor
    · intro c hc
      constructor
      · intro h
        exact absurd rfl h
      · intro h
        rcases List.exists_mem_of_ne_nil _ (hWF.2.1 c hc) with ⟨e, he⟩
        exact absurd rfl (h e he)
    · intro q c h
      exact absurd h (by simp [init_state])
  | move s m p hm hprev ih =>
    obtain ⟨ihInv, ihAux⟩ := ih
    obtain ⟨A1, A2, A3, A4, A5, A6, A7, A8, A9, A10, A11, A12, A13, A14⟩ :=
      apply_move_spec b s m p (hWF.2.2.2 m hm)
    constructor
    · intro c hc
      by_cases hcF : c ∈ completedCells b s m
      · constructor
        · intro _
          intro e he
          have hcA : completesAfter b s m c = true := (List.mem_filter.mp hcF).2
          unfold completesAfter at hcA
          rw [Bool.and_eq_true] at hcA
          rw [List.all_eq_true] at hcA
          have h3 := hcA.2 e he
          rw [A1 e]
          rcases eq_or_ne e m with h4 | h4
          · rw [if_pos h4]
            exact natCast_ne_negOne p
          · rw [if_neg h4]
            simp only [Bool.or_eq_true, beq_iff_eq, bne_iff_ne] at h3
            rcases h3 with h3 | h3
            · exact absurd h3 h4
            · exact h3
        · intro _
          rw [A4 c, if_pos hcF]
          exact natCast_ne_negOne p
      · have hc4 := A4 c
        rw [if_neg hcF] at hc4
        constructor
        · intro hown
          rw [hc4] at hown
          have hall := (ihInv c hc).mp hown
          intro e he
          rw [A1 e]
          rcases eq_or_ne e m with h4 | h4
          · rw [if_pos h4]
            exact natCast_ne_negOne p
          · rw [if_neg h4]
            exact hall e he
        · intro hall
          rw [hc4]
          by_contra hunc
          have hceq : s.cells c = -1 := hunc
          by_cases hmc : m ∈ b.cell_edges c
          · have hmem : c ∈ b.edge_cells m := hWF.2.2.1 c hc m hmc
            have hcomp : completesAfter b s m c = true := by
              unfold completesAfter
              rw [Bool.and_eq_true]
              constructor
              · simp [hceq]
              · rw [List.all_eq_true]
                intro e he
                have h5 := hall e he
                rw [A1 e] at h5
                simp only [Bool.or_eq_true, beq_iff_eq, bne_iff_ne]
                rcases eq_or_ne e m with h4 | h4
                · exact Or.inl h4
                · rw [if_neg h4] at h5
                  exact Or.inr h5
            exact hcF (List.mem_filter.mpr ⟨hmem, hcomp⟩)
          · have hall2 : ∀ e ∈ b.cell_edges c, s.edges e ≠ -1 := by
              intro e he
              have h5 := hall e he
              rw [A1 e] at h5
              rcases eq_or_ne e m with h4 | h4
              · exact absurd (h4 ▸ he) hmc
              · rw [if_neg h4] at h5
                exact h5
            exact (ihInv c hc).mpr hall2 hceq
    · intro q c h
      rcases A14 q c h with h1 | h1
      · have hold := ihAux q c h1
        rw [A4 c]
        by_cases hcF : c ∈ completedCells b s m
        · rw [if_pos hcF]
          exact natCast_ne_negOne p
        · rw [if_neg hcF]
          exact hold
      · rw [A4 c, if_pos h1]
        exact natCast_ne_negOne p
  | gauntlet s p amt hprev ih =>
    obtain ⟨ihInv, ihAux⟩ := ih
    obtain ⟨hc, he, hcc⟩ := use_gauntlet_frame s p amt
    constructor
    · intro c hcm
      rw [hc, he]
      exact ihInv c hcm
    · intro q c h
      rw [hcc] at h
      rw [hc]
      exact ihAux q c h
  | compass s p tc hprev ih =>
    obtain ⟨ihInv, ihAux⟩ := ih
    rcases use_compass_spec s p tc with heq | ⟨source, hsrc, htcOwn, hE, hC, hP⟩
    · rw [heq]
      exact ⟨ihInv, ihAux⟩
    · have hsrcOwned : s.cells source ≠ -1 := ihAux p source hsrc
      constructor
      · intro c hcm
        rw [hE, hC c]
        by_cases h1 : c = tc
        · rw [if_pos h1]
          constructor
          · intro _
            refine (ihInv c hcm).mp ?_
            rw [h1, htcOwn]
            exact natCast_ne_negOne (1 - p)
          · intro _
            exact natCast_ne_negOne p
        · rw [if_neg h1]
          by_cases h2 : c = source
          · rw [if_pos h2]
            constructor
            · intro _
              exact (ihInv c hcm).mp (by rw [h2]; exact hsrcOwned)
            · intro _
              exact natCast_ne_negOne (1 - p)
          · rw [if_neg h2]
            exact ihInv c hcm
      · intro q c h
        have h1 := hP q c h
        have hold := ihAux q c h1
        rw [hC c]
        by_cases ha : c = tc
        · rw [if_pos ha]
          exact natCast_ne_negOne p
        · rw [if_neg ha]
          by_cases hb : c = source
          · rw [if_pos hb]
            exact natCast_ne_negOne (1 - p)
          · rw [if_neg hb]
            exact hold

/-- C7: in every state reachable from the initial board state by Move
Engine calls, a cell is owned iff all of its bounding edges are owned. -/
theorem claim_C7 (b : Board) (s : GameState) (hWF : WFBoard b)
    (hr : Reachable b s) :
    ∀ c ∈ b.cells, (s.cells c ≠ -1 ↔ ∀ e ∈ b.cell_edges c, s.edges e ≠ -1) :=
  (reachable_inv b hWF s hr).1

theorem claim_C7_witness :
    WFBoard cexBoard ∧
    (∀ c ∈ cexBoard.cells,
      ((init_state (fun _ => none) (fun _ => none)).cells c ≠ -1 ↔
        ∀ e ∈ cexBoard.cell_edges c,
          (init_state (fun _ => none) (fun _ => none)).edges e ≠ -1)) := by
  have hWF : WFBoard cexBoard := ⟨by decide, by decide, by decide, by decide⟩
  exact ⟨hWF, claim_C7 cexBoard _ hWF (Reachable.init _ _)⟩

/-! ## Search-engine lemmas (for C9 and C1) -/

theorem mem_insertLe {α : Type} (le : α → α → Bool) (x z : α) :
    ∀ l, z ∈ insertLe le x l ↔ z = x ∨ z ∈ l := by
  intro l
  induction l with
  | nil => simp [insertLe]
  | cons y ys ih =>
    unfold insertLe
    by_cases h : le y x
    · rw [if_pos h]
      simp only [List.mem_cons, ih]
      try tauto
    · rw [if_neg h]
      simp only [List.mem_cons]
      try tauto

theorem mem_stableSort_aux {α : Type} (le : α → α → Bool) :
    ∀ (l acc : List α) (z : α),
      (z ∈ l.foldl (fun acc x => insertLe le x acc) acc ↔ z ∈ acc ∨ z ∈ l) := by
  intro l
  induction l with
  | nil => simp
  | cons c cs ih =>
    intro acc z
    show z ∈ cs.foldl (fun acc x => insertLe le x acc) (insertLe le c acc) ↔ _
    rw [ih (insertLe le c acc) z, mem_insertLe]
    simp only [List.mem_cons]
    tauto

theorem mem_stableSort {α : Type} (le : α → α → Bool) (l : List α) (z : α) :
    z ∈ stableSort le l ↔ z ∈ l := by
  unfold stableSort
  rw [mem_stableSort_aux]
  simp

theorem insertLe_length {α : Type} (le : α → α → Bool) (x : α) :
    ∀ l : List α, (insertLe le x l).length = l.length + 1 := by
  intro l
  induction l with
  | nil => rfl
  | cons y ys ih =>
    unfold insertLe
    by_cases h : le y x
    · rw [if_pos h]
      simp [ih]
    · rw [if_neg h]
      simp

theorem stableSort_length_aux {α : Type} (le : α → α → Bool) :
    ∀ (l acc : List α),
      (l.foldl (fun acc x => insertLe le x acc) acc).length = acc.length + l.length := by
  intro l
  induction l with
  | nil => simp
  | cons c cs ih =>
    intro acc
    show (cs.foldl (fun acc x => insertLe le x acc) (insertLe le c acc)).length = _
    rw [ih, insertLe_length]
    simp only [List.length_cons]
    omega

theorem stableSort_length {α : Type} (le : α → α → Bool) (l : List α) :
    (stableSort le l).length = l.length := by
  unfold stableSort
  rw [stableSort_length_aux]
  simp

theorem mem_order_moves (b : Board) (s : GameState) (moves : List Edge) (mx : Bool)
    (e : Edge) (h : e ∈ order_moves b s moves mx) : e ∈ moves := by
  unfold order_moves at h
  rw [List.mem_map] at h
  obtain ⟨x, hx, hfst⟩ := h
  have hx2 : x ∈ moves.map (fun m => (m, moveScoreH b s m)) := by
    rcases hmx : mx
    · rw [hmx] at hx
      rw [if_neg (by decide : ¬((false : Bool) = true))] at hx
      exact (mem_stableSort _ _ _).mp hx
    · rw [hmx] at hx
      rw [if_pos rfl] at hx
      exact (mem_stableSort _ _ _).mp hx
  rw [List.mem_map] at hx2
  obtain ⟨m, hm, hpair⟩ := hx2
  rw [← hfst, ← hpair]
  exact hm

theorem order_moves_length (b : Board) (s : GameState) (moves : List Edge) (mx : Bool) :
    (order_moves b s moves mx).length = moves.length := by
  unfold order_moves
  rcases mx <;> simp [stableSort_length]

theorem order_moves_ne_nil (b : Board) (s : GameState) (moves : List Edge) (mx : Bool)
    (h : moves ≠ []) : order_moves b s moves mx ≠ [] := by
  intro hnil
  have h1 := order_moves_length b s moves mx
  rw [hnil] at h1
  exact h (List.length_eq_zero.mp h1.symm)

theorem mem_get_possible_moves (b : Board) (s : GameState) (e : Edge)
    (h : e ∈ get_possible_moves b s) : s.edges e = -1 := by
  unfold get_possible_moves at h
  rw [List.mem_filter] at h
  simpa using h.2

theorem get_possible_moves_ne_nil (b : Board) (s : GameState)
    (h : is_terminal b s = false) : get_possible_moves b s ≠ [] := by
  unfold is_terminal at h
  have h2 : ¬(b.edges.all (fun e => s.edges e != -1) = true) := by
    rw [h]
    decide
  rw [List.all_eq_true] at h2
  push_neg at h2
  obtain ⟨e, he, hne⟩ := h2
  have h3 : s.edges e = -1 := by
    by_contra h4
    exact hne (by simpa using h4)
  have : e ∈ get_possible_moves b s := by
    unfold get_possible_moves
    rw [List.mem_filter]
    exact ⟨he, by simpa using h3⟩
  exact List.ne_nil_of_mem this

/-- All values stored in a transposition table are finite (no `math.inf`
sentinels ever get stored). -/
def TTFin (tt : TT) : Prop :=
  ∀ k e, tt.lookup k = some e → ∃ v, e.value = XInt.fin v

theorem TTFin_nil : TTFin [] := by
  intro k e h
  cases h

theorem TTFin_insert (tt : TT) (k : TTKey) (en : TTEntry) (htt : TTFin tt)
    (hfin : ∃ v, en.value = XInt.fin v) : TTFin ((k, en) :: tt) := by
  intro k2 e2 h
  simp only [List.lookup] at h
  rcases hk : k2 == k
  · rw [hk] at h
    exact htt k2 e2 h
  · rw [hk] at h
    have h2 : some en = some e2 := h
    rw [← Option.some.inj h2]
    exact hfin

theorem cachedAt_fin (b : Board) (d : Nat) (s : GameState) (tt : TT)
    (htt : TTFin tt) (v : XInt) (mo : Option Edge)
    (h : cachedAt b d s tt = some (v, mo)) : ∃ w, v = XInt.fin w := by
  unfold cachedAt at h
  rcases hl : tt.lookup (hash_state b s) with _ | e
  · rw [hl] at h
    cases h
  · rw [hl] at h
    have h2 : (if d ≤ e.depth then some (e.value, e.move) else none) = some (v, mo) := h
    by_cases hd : d ≤ e.depth
    · rw [if_pos hd] at h2
      obtain ⟨w, hw⟩ := htt (hash_state b s) e hl
      have h3 := Option.some.inj h2
      have hv : v = e.value := (congrArg Prod.fst h3).symm
      exact ⟨w, hv ▸ hw⟩
    · rw [if_neg hd] at h2
      cases h2

/-- Specification of the maximizing alpha-beta loop: the returned value is
the incoming accumulator or a finite score; the table stays finite; the
returned move is the incoming candidate or one of the loop's own moves; and
starting from the `-inf` accumulator with at least one move, a move is
always selected (the first move's finite score beats the sentinel). -/
theorem abLoopMax_spec (b : Board) (s : GameState)
    (recur : GameState → XInt → XInt → Bool → TT → XInt × Option Edge × TT)
    (hrec : ∀ s' a' b' mx' t', TTFin t' →
      (∃ v, (recur s' a' b' mx' t').1 = XInt.fin v) ∧ TTFin (recur s' a' b' mx' t').2.2) :
    ∀ (moves : List Edge) (al be me : XInt) (best : Option Edge) (tt : TT), TTFin tt →
      ((abLoopMax recur b s moves al be me best tt).1 = me ∨
        ∃ v, (abLoopMax recur b s moves al be me best tt).1 = XInt.fin v) ∧
      TTFin (abLoopMax recur b s moves al be me best tt).2.2 ∧
      ((abLoopMax recur b s moves al be me best tt).2.1 = best ∨
        ∃ e ∈ moves, (abLoopMax recur b s moves al be me best tt).2.1 = some e) ∧
      (me = XInt.ninf → moves ≠ [] →
        ∃ e ∈ moves, (abLoopMax recur b s moves al be me best tt).2.1 = some e) ∧
      (me = XInt.ninf → moves ≠ [] →
        ∃ v, (abLoopMax recur b s moves al be me best tt).1 = XInt.fin v) := by
  intro moves
  induction moves with
  | nil =>
    intro al be me best tt htt
    exact ⟨Or.inl rfl, htt, Or.inl rfl, fun _ hne => absurd rfl hne,
      fun _ hne => absurd rfl hne⟩
  | cons m rest ih =>
    intro al be me best tt htt
    simp only [abLoopMax]
    obtain ⟨⟨v, hv⟩, htt1⟩ :=
      hrec (apply_move b s m 1).1 al be
        (if (apply_move b s m 1).2 then true else false) tt htt
    set r := recur (apply_move b s m 1).1 al be
      (if (apply_move b s m 1).2 then true else false) tt with hrr
    by_cases hbr : XInt.ble be (XInt.max al r.1)
    · rw [if_pos hbr]
      by_cases hupd : XInt.blt me r.1
      · rw [if_pos hupd, if_pos hupd]
        refine ⟨Or.inr ⟨v, hv⟩, htt1, Or.inr ⟨m, List.mem_cons_self m rest, rfl⟩, ?_, ?_⟩
        · intro _ _
          exact ⟨m, List.mem_cons_self m rest, rfl⟩
        · intro _ _
          exact ⟨v, hv⟩
      · rw [if_neg hupd, if_neg hupd]
        refine ⟨Or.inl rfl, htt1, Or.inl rfl, ?_, ?_⟩
        all_goals
          intro hme _
          rw [hme, hv] at hupd
          exact absurd rfl hupd
    · rw [if_neg hbr]
      by_cases hupd : XInt.blt me r.1
      · rw [if_pos hupd, if_pos hupd]
        obtain ⟨ia, ib, ic, _, _⟩ := ih (XInt.max al r.1) be r.1 (some m) r.2.2 htt1
        refine ⟨?_, ib, ?_, ?_, ?_⟩
        · rcases ia with h | h
          · exact Or.inr ⟨v, h.trans hv⟩
          · exact Or.inr h
        · rcases ic with h | ⟨e, he, hh⟩
          · exact Or.inr ⟨m, List.mem_cons_self m rest, h⟩
          · exact Or.inr ⟨e, List.mem_cons_of_mem m he, hh⟩
        · intro _ _
          rcases ic with h | ⟨e, he, hh⟩
          · exact ⟨m, List.mem_cons_self m rest, h⟩
          · exact ⟨e, List.mem_cons_of_mem m he, hh⟩
        · intro _ _
          rcases ia with h | h
          · exact ⟨v, h.trans hv⟩
          · exact h
      · rw [if_neg hupd, if_neg hupd]
        obtain ⟨ia, ib, ic, _, _⟩ := ih (XInt.max al r.1) be me best r.2.2 htt1
        refine ⟨ia, ib, ?_, ?_, ?_⟩
        · rcases ic with h | ⟨e, he, hh⟩
          · exact Or.inl h
          · exact Or.inr ⟨e, List.mem_cons_of_mem m he, hh⟩
        all_goals
          intro hme _
          rw [hme, hv] at hupd
          exact absurd rfl hupd

/-- Specification of the minimizing alpha-beta loop (mirror image of
`abLoopMax_spec`, with the `+inf` sentinel). -/
theorem abLoopMin_spec (b : Board) (s : GameState)
    (recur : GameState → XInt → XInt → Bool → TT → XInt × Option Edge × TT)
    (hrec : ∀ s' a' b' mx' t', TTFin t' →
      (∃ v, (recur s' a' b' mx' t').1 = XInt.fin v) ∧ TTFin (recur s' a' b' mx' t').2.2) :
    ∀ (moves : List Edge) (al be me : XInt) (best : Option Edge) (tt : TT), TTFin tt →
      ((abLoopMin recur b s moves al be me best tt).1 = me ∨
        ∃ v, (abLoopMin recur b s moves al be me best tt).1 = XInt.fin v) ∧
      TTFin (abLoopMin recur b s moves al be me best tt).2.2 ∧
      ((abLoopMin recur b s moves al be me best tt).2.1 = best ∨
        ∃ e ∈ moves, (abLoopMin recur b s moves al be me best tt).2.1 = some e) ∧
      (me = XInt.pinf → moves ≠ [] →
        ∃ e ∈ moves, (abLoopMin recur b s moves al be me best tt).2.1 = some e) ∧
      (me = XInt.pinf → moves ≠ [] →
        ∃ v, (abLoopMin recur b s moves al be me best tt).1 = XInt.fin v) := by
  intro moves
  induction moves with
  | nil =>
    intro al be me best tt htt
    exact ⟨Or.inl rfl, htt, Or.inl rfl, fun _ hne => absurd rfl hne,
      fun _ hne => absurd rfl hne⟩
  | cons m rest ih =>
    intro al be me best tt htt
    simp only [abLoopMin]
    obtain ⟨⟨v, hv⟩, htt1⟩ :=
      hrec (apply_move b s m 0).1 al be
        (if (apply_move b s m 0).2 then false else true) tt htt
    set r := recur (apply_move b s m 0).1 al be
      (if (apply_move b s m 0).2 then false else true) tt with hrr
    by_cases hbr : XInt.ble (XInt.min be r.1) al
    · rw [if_pos hbr]
      by_cases hupd : XInt.blt r.1 me
      · rw [if_pos hupd, if_pos hupd]
        refine ⟨Or.inr ⟨v, hv⟩, htt1, Or.inr ⟨m, List.mem_cons_self m rest, rfl⟩, ?_, ?_⟩
        · intro _ _
          exact ⟨m, List.mem_cons_self m rest, rfl⟩
        · intro _ _
          exact ⟨v, hv⟩
      · rw [if_neg hupd, if_neg hupd]
        refine ⟨Or.inl rfl, htt1, Or.inl rfl, ?_, ?_⟩
        all_goals
          intro hme _
          rw [hme, hv] at hupd
          exact absurd rfl hupd
    · rw [if_neg hbr]
      by_cases hupd : XInt.blt r.1 me
      · rw [if_pos hupd, if_pos hupd]
        obtain ⟨ia, ib, ic, _, _⟩ := ih al (XInt.min be r.1) r.1 (some m) r.2.2 htt1
        refine ⟨?_, ib, ?_, ?_, ?_⟩
        · rcases ia with h | h
          · exact Or.inr ⟨v, h.trans hv⟩
          · exact Or.inr h
        · rcases ic with h | ⟨e, he, hh⟩
          · exact Or.inr ⟨m, List.mem_cons_self m rest, h⟩
          · exact Or.inr ⟨e, List.mem_cons_of_mem m he, hh⟩
        · intro _ _
          rcases ic with h | ⟨e, he, hh⟩
          · exact ⟨m, List.mem_cons_self m rest, h⟩
          · exact ⟨e, List.mem_cons_of_mem m he, hh⟩
        · intro _ _
          rcases ia with h | h
          · exact ⟨v, h.trans hv⟩
          · exact h
      · rw [if_neg hupd, if_neg hupd]
        obtain ⟨ia, ib, ic, _, _⟩ := ih al (XInt.min be r.1) me best r.2.2 htt1
        refine ⟨ia, ib, ?_, ?_, ?_⟩
        · rcases ic with h | ⟨e, he, hh⟩
          · exact Or.inl h
          · exact Or.inr ⟨e, List.mem_cons_of_mem m he, hh⟩
        all_goals
          intro hme _
          rw [hme, hv] at hupd
          exact absurd rfl hupd

/-- Every value `minimax` returns or stores is finite: `evaluate` is
finite, loops over the (nonempty, for non-terminal states) move list
replace the infinite sentinels with finite child scores before anything is
stored, and cached values were finite when stored. -/
theorem minimax_fin (b : Board) :
    ∀ (d : Nat) (s : GameState) (al be : XInt) (mx : Bool) (tt : TT), TTFin tt →
      (∃ v, (minimax b d s al be mx tt).1 = XInt.fin v) ∧
      TTFin (minimax b d s al be mx tt).2.2 := by
  intro d
  induction d with
  | zero =>
    intro s al be mx tt htt
    rcases hc : cachedAt b 0 s tt with _ | vm
    · have h1 : minimax b 0 s al be mx tt = leafStep b 0 s tt := by
        simp only [minimax, hc]
      rw [h1]
      exact ⟨⟨evaluate s, rfl⟩,
        TTFin_insert tt (hash_state b s) ⟨XInt.fin (evaluate s), none, 0⟩ htt
          ⟨evaluate s, rfl⟩⟩
    · rcases vm with ⟨v, mo⟩
      have h1 : minimax b 0 s al be mx tt = (v, mo, tt) := by
        simp only [minimax, hc]
      rw [h1]
      exact ⟨cachedAt_fin b 0 s tt htt v mo hc, htt⟩
  | succ d0 ih =>
    intro s al be mx tt htt
    rcases hc : cachedAt b (d0 + 1) s tt with _ | vm
    · by_cases hterm : is_terminal b s = true
      · have h1 : minimax b (d0 + 1) s al be mx tt = leafStep b (d0 + 1) s tt := by
          simp [minimax, hc, hterm]
        rw [h1]
        exact ⟨⟨evaluate s, rfl⟩,
          TTFin_insert tt (hash_state b s) ⟨XInt.fin (evaluate s), none, d0 + 1⟩ htt
            ⟨evaluate s, rfl⟩⟩
      · have hterm2 : is_terminal b s = false := Bool.eq_false_iff.mpr hterm
        have hmoves := get_possible_moves_ne_nil b s hterm2
        have hrec : ∀ s' a' b' mx' t', TTFin t' →
            (∃ v, (minimax b d0 s' a' b' mx' t').1 = XInt.fin v) ∧
            TTFin (minimax b d0 s' a' b' mx' t').2.2 :=
          fun s' a' b' mx' t' ht' => ih s' a' b' mx' t' ht'
        rcases mx with _ | _
        · have hord := order_moves_ne_nil b s (get_possible_moves b s) false hmoves
          have h1 : minimax b (d0 + 1) s al be false tt =
              ((abLoopMin (fun s2 a2 b2 mx2 t2 => minimax b d0 s2 a2 b2 mx2 t2) b s
                  (order_moves b s (get_possible_moves b s) false) al be XInt.pinf none tt).1,
               (abLoopMin (fun s2 a2 b2 mx2 t2 => minimax b d0 s2 a2 b2 mx2 t2) b s
                  (order_moves b s (get_possible_moves b s) false) al be XInt.pinf none tt).2.1,
               (hash_state b s,
                ⟨(abLoopMin (fun s2 a2 b2 mx2 t2 => minimax b d0 s2 a2 b2 mx2 t2) b s
                    (order_moves b s (get_possible_moves b s) false) al be XInt.pinf none tt).1,
                 (abLoopMin (fun s2 a2 b2 mx2 t2 => minimax b d0 s2 a2 b2 mx2 t2) b s
                    (order_moves b s (get_possible_moves b s) false) al be XInt.pinf none tt).2.1,
                 d0 + 1⟩) ::
                (abLoopMin (fun s2 a2 b2 mx2 t2 => minimax b d0 s2 a2 b2 mx2 t2) b s
                  (order_moves b s (get_possible_moves b s) false) al be XInt.pinf none tt).2.2) := by
            simp [minimax, hc, hterm2]
          obtain ⟨_, ib, _, _, ie⟩ :=
            abLoopMin_spec b s (fun s2 a2 b2 mx2 t2 => minimax b d0 s2 a2 b2 mx2 t2) hrec
              (order_moves b s (get_possible_moves b s) false) al be XInt.pinf none tt htt
          obtain ⟨v, hv⟩ := ie rfl hord
          rw [h1]
          exact ⟨⟨v, hv⟩, TTFin_insert _ _ _ ib ⟨v, hv⟩⟩
        · have hord := order_moves_ne_nil b s (get_possible_moves b s) true hmoves
          have h1 : minimax b (d0 + 1) s al be true tt =
              ((abLoopMax (fun s2 a2 b2 mx2 t2 => minimax b d0 s2 a2 b2 mx2 t2) b s
                  (order_moves b s (get_possible_moves b s) true) al be XInt.ninf none tt).1,
               (abLoopMax (fun s2 a2 b2 mx2 t2 => minimax b d0 s2 a2 b2 mx2 t2) b s
                  (order_moves b s (get_possible_moves b s) true) al be XInt.ninf none tt).2.1,
               (hash_state b s,
                ⟨(abLoopMax (fun s2 a2 b2 mx2 t2 => minimax b d0 s2 a2 b2 mx2 t2) b s
                    (order_moves b s (get_possible_moves b s) true) al be XInt.ninf none tt).1,
                 (abLoopMax (fun s2 a2 b2 mx2 t2 => minimax b d0 s2 a2 b2 mx2 t2) b s
                    (order_moves b s (get_possible_moves b s) true) al be XInt.ninf none tt).2.1,
                 d0 + 1⟩) ::
                (abLoopMax (fun s2 a2 b2 mx2 t2 => minimax b d0 s2 a2 b2 mx2 t2) b s
                  (order_moves b s (get_possible_moves b s) true) al be XInt.ninf none tt).2.2) := by
            simp [minimax, hc, hterm2]
          obtain ⟨_, ib, _, _, ie⟩ :=
            abLoopMax_spec b s (fun s2 a2 b2 mx2 t2 => minimax b d0 s2 a2 b2 mx2 t2) hrec
              (order_moves b s (get_possible_moves b s) true) al be XInt.ninf none tt htt
          obtain ⟨v, hv⟩ := ie rfl hord
          rw [h1]
          exact ⟨⟨v, hv⟩, TTFin_insert _ _ _ ib ⟨v, hv⟩⟩
    · rcases vm with ⟨v, mo⟩
      have h1 : minimax b (d0 + 1) s al be mx tt = (v, mo, tt) := by
        simp only [minimax, hc]
      rw [h1]
      exact ⟨cachedAt_fin b (d0 + 1) s tt htt v mo hc, htt⟩

/-- C9: on any non-terminal state, at any depth `≥ 1` and with any
alpha-beta window, `minimax` started with a fresh transposition table
returns `some` move whose edge is unclaimed in that state: the finite score
of the first ordered candidate always beats the infinite sentinel bound, so
`best_move` is set on the very first loop iteration. -/
theorem claim_C9 (b : Board) (s : GameState) (d : Nat) (al be : XInt) (mx : Bool)
    (hd : 1 ≤ d) (hterm : is_terminal b s = false) :
    ∃ e, (minimax b d s al be mx []).2.1 = some e ∧ s.edges e = -1 := by
  rcases d with _ | d0
  · exact absurd hd (by decide)
  · have hc : cachedAt b (d0 + 1) s ([] : TT) = none := rfl
    have hmoves := get_possible_moves_ne_nil b s hterm
    have hrec : ∀ s' a' b' mx' t', TTFin t' →
        (∃ v, (minimax b d0 s' a' b' mx' t').1 = XInt.fin v) ∧
        TTFin (minimax b d0 s' a' b' mx' t').2.2 :=
      fun s' a' b' mx' t' ht' => minimax_fin b d0 s' a' b' mx' t' ht'
    rcases mx with _ | _
    · have hord := order_moves_ne_nil b s (get_possible_moves b s) false hmoves
      have h1 : (minimax b (d0 + 1) s al be false []).2.1 =
          (abLoopMin (fun s2 a2 b2 mx2 t2 => minimax b d0 s2 a2 b2 mx2 t2) b s
            (order_moves b s (get_possible_moves b s) false) al be XInt.pinf none []).2.1 := by
        simp [minimax, hc, hterm]
      obtain ⟨_, _, _, idd, _⟩ :=
        abLoopMin_spec b s (fun s2 a2 b2 mx2 t2 => minimax b d0 s2 a2 b2 mx2 t2) hrec
          (order_moves b s (get_possible_moves b s) false) al be XInt.pinf none [] TTFin_nil
      obtain ⟨e, he, hee⟩ := idd rfl hord
      refine ⟨e, ?_, ?_⟩
      · rw [h1]
        exact hee
      · exact mem_get_possible_moves b s e
          (mem_order_moves b s (get_possible_moves b s) false e he)
    · have hord := order_moves_ne_nil b s (get_possible_moves b s) true hmoves
      have h1 : (minimax b (d0 + 1) s al be true []).2.1 =
          (abLoopMax (fun s2 a2 b2 mx2 t2 => minimax b d0 s2 a2 b2 mx2 t2) b s
            (order_moves b s (get_possible_moves b s) true) al be XInt.ninf none []).2.1 := by
        simp [minimax, hc, hterm]
      obtain ⟨_, _, _, idd, _⟩ :=
        abLoopMax_spec b s (fun s2 a2 b2 mx2 t2 => minimax b d0 s2 a2 b2 mx2 t2) hrec
          (order_moves b s (get_possible_moves b s) true) al be XInt.ninf none [] TTFin_nil
      obtain ⟨e, he, hee⟩ := idd rfl hord
      refine ⟨e, ?_, ?_⟩
      · rw [h1]
        exact hee
      · exact mem_get_possible_moves b s e
          (mem_order_moves b s (get_possible_moves b s) true e he)

theorem claim_C9_witness :
    (1 : Nat) ≤ 1 ∧ is_terminal cexBoard cexState = false ∧
    ∃ e, (minimax cexBoard 1 cexState .ninf .pinf true []).2.1 = some e ∧
      cexState.edges e = -1 :=
  ⟨by decide, by decide,
    claim_C9 cexBoard cexState 1 .ninf .pinf true (by decide) (by decide)⟩

/-! ## Depth-limited alpha-beta equivalence (for C1) -/

theorem XInt.max_ninfl (x : XInt) : XInt.max XInt.ninf x = x := by
  cases x <;> rfl

theorem XInt.max_ninfr (x : XInt) : XInt.max x XInt.ninf = x := by
  cases x <;> rfl

theorem XInt.max_pinfl (x : XInt) : XInt.max XInt.pinf x = XInt.pinf := by
  cases x <;> rfl

theorem XInt.max_pinfr (x : XInt) : XInt.max x XInt.pinf = XInt.pinf := by
  cases x <;> rfl

theorem XInt.max_fin_fin (v w : Int) :
    XInt.max (XInt.fin v) (XInt.fin w) = XInt.fin (Max.max v w) := by
  unfold XInt.max XInt.blt
  simp only [decide_eq_true_eq]
  split_ifs with h
  · exact congrArg XInt.fin (max_eq_right h.le).symm
  · exact congrArg XInt.fin (max_eq_left (not_lt.mp h)).symm

theorem XInt.min_ninfl (x : XInt) : XInt.min XInt.ninf x = XInt.ninf := by
  cases x <;> rfl

theorem XInt.min_ninfr (x : XInt) : XInt.min x XInt.ninf = XInt.ninf := by
  cases x <;> rfl

theorem XInt.min_pinfl (x : XInt) : XInt.min XInt.pinf x = x := by
  cases x <;> rfl

theorem XInt.min_pinfr (x : XInt) : XInt.min x XInt.pinf = x := by
  cases x <;> rfl

theorem XInt.min_fin_fin (v w : Int) :
    XInt.min (XInt.fin v) (XInt.fin w) = XInt.fin (Min.min v w) := by
  unfold XInt.min XInt.blt
  simp only [decide_eq_true_eq]
  split_ifs with h
  · exact congrArg XInt.fin (min_eq_right h.le).symm
  · exact congrArg XInt.fin (min_eq_left (not_lt.mp h)).symm

theorem XInt.max_right_comm (a b c : XInt) :
    XInt.max (XInt.max a b) c = XInt.max (XInt.max a c) b := by
  cases a <;> cases b <;> cases c <;>
    simp [XInt.max_ninfl, XInt.max_ninfr, XInt.max_pinfl, XInt.max_pinfr,
      XInt.max_fin_fin, max_comm, max_left_comm, max_assoc]

theorem XInt.min_right_comm (a b c : XInt) :
    XInt.min (XInt.min a b) c = XInt.min (XInt.min a c) b := by
  cases a <;> cases b <;> cases c <;>
    simp [XInt.min_ninfl, XInt.min_ninfr, XInt.min_pinfl, XInt.min_pinfr,
      XInt.min_fin_fin, min_comm, min_left_comm, min_assoc]

theorem XInt.max_ne_pinf (a : XInt) (v : Int) (h : a ≠ XInt.pinf) :
    XInt.max a (XInt.fin v) ≠ XInt.pinf := by
  cases a
  · rw [XInt.max_ninfl]; exact fun hc => XInt.noConfusion hc
  · rw [XInt.max_fin_fin]; exact fun hc => XInt.noConfusion hc
  · exact absurd rfl h

theorem XInt.min_ne_ninf (a : XInt) (v : Int) (h : a ≠ XInt.ninf) :
    XInt.min a (XInt.fin v) ≠ XInt.ninf := by
  cases a
  · exact absurd rfl h
  · rw [XInt.min_fin_fin]; exact fun hc => XInt.noConfusion hc
  · rw [XInt.min_pinfl]; exact fun hc => XInt.noConfusion hc

theorem XInt.ble_pinf_false (a : XInt) (h : a ≠ XInt.pinf) :
    XInt.ble XInt.pinf a = false := by
  cases a <;> simp_all [XInt.ble, XInt.blt]

theorem XInt.ble_ninf_false (a : XInt) (h : a ≠ XInt.ninf) :
    XInt.ble a XInt.ninf = false := by
  cases a <;> simp_all [XInt.ble, XInt.blt]

theorem insertLe_perm {α : Type} (le : α → α → Bool) (x : α) :
    ∀ l : List α, (insertLe le x l).Perm (x :: l) := by
  intro l
  induction l with
  | nil => exact List.Perm.refl _
  | cons y ys ih =>
    unfold insertLe
    by_cases h : le y x
    · rw [if_pos h]
      exact (List.Perm.cons y ih).trans (List.Perm.swap x y ys)
    · rw [if_neg h]

theorem stableSort_perm_aux {α : Type} (le : α → α → Bool) :
    ∀ (l acc : List α), (l.foldl (fun acc x => insertLe le x acc) acc).Perm (acc ++ l) := by
  intro l
  induction l with
  | nil => intro acc; simp
  | cons c cs ih =>
    intro acc
    show (cs.foldl (fun acc x => insertLe le x acc) (insertLe le c acc)).Perm _
    refine (ih (insertLe le c acc)).trans ?_
    have h1 : (insertLe le c acc ++ cs).Perm ((c :: acc) ++ cs) :=
      (insertLe_perm le c acc).append_right cs
    refine h1.trans ?_
    show (c :: (acc ++ cs)).Perm (acc ++ c :: cs)
    exact List.perm_middle.symm.trans (List.Perm.refl _)

theorem stableSort_perm {α : Type} (le : α → α → Bool) (l : List α) :
    (stableSort le l).Perm l := by
  unfold stableSort
  simpa using stableSort_perm_aux le l []

theorem order_moves_perm (b : Board) (s : GameState) (moves : List Edge) (mx : Bool) :
    (order_moves b s moves mx).Perm moves := by
  have h2 : (moves.map (fun m => (m, moveScoreH b s m))).map Prod.fst = moves := by
    rw [List.map_map]
    exact List.map_id'' (fun m => rfl) moves
  rcases mx
  · show ((stableSort (fun x y => decide (x.2 ≤ y.2))
      (moves.map (fun m => (m, moveScoreH b s m)))).map Prod.fst).Perm moves
    refine (List.Perm.map Prod.fst (stableSort_perm _ _)).trans ?_
    rw [h2]
  · show ((stableSort (fun x y => decide (y.2 ≤ x.2))
      (moves.map (fun m => (m, moveScoreH b s m)))).map Prod.fst).Perm moves
    refine (List.Perm.map Prod.fst (stableSort_perm _ _)).trans ?_
    rw [h2]

theorem foldl_xmax_perm (g : Edge → XInt) :
    ∀ {l1 l2 : List Edge}, l1.Perm l2 →
      ∀ init, l1.foldl (fun a m => XInt.max a (g m)) init =
        l2.foldl (fun a m => XInt.max a (g m)) init := by
  intro l1 l2 h
  induction h with
  | nil => intro init; rfl
  | cons x h ih =>
    intro init
    simp only [List.foldl_cons]
    exact ih _
  | swap x y l =>
    intro init
    simp only [List.foldl_cons]
    rw [XInt.max_right_comm]
  | trans h1 h2 ih1 ih2 =>
    intro init
    rw [ih1, ih2]

theorem foldl_xmin_perm (g : Edge → XInt) :
    ∀ {l1 l2 : List Edge}, l1.Perm l2 →
      ∀ init, l1.foldl (fun a m => XInt.min a (g m)) init =
        l2.foldl (fun a m => XInt.min a (g m)) init := by
  intro l1 l2 h
  induction h with
  | nil => intro init; rfl
  | cons x h ih =>
    intro init
    simp only [List.foldl_cons]
    exact ih _
  | swap x y l =>
    intro init
    simp only [List.foldl_cons]
    rw [XInt.min_right_comm]
  | trans h1 h2 ih1 ih2 =>
    intro init
    rw [ih1, ih2]

theorem apply_move_edge_self (b : Board) (s : GameState) (m : Edge) (p : Player) :
    (apply_move b s m p).1.edges m = (p : Int) := by
  rw [apply_move_edges_all b s m p m]
  show upd (gauntletTick s p).edges m (p : Int) m = (p : Int)
  exact upd_same _ _ _

theorem apply_move_edge_other (b : Board) (s : GameState) (m e : Edge) (p : Player)
    (h : e ≠ m) : (apply_move b s m p).1.edges e = s.edges e := by
  rw [apply_move_edges_all b s m p e]
  show upd (gauntletTick s p).edges m (p : Int) e = s.edges e
  rw [upd_other _ _ _ _ h]
  exact congrFun (gauntletTick_frame s p).2.1 e

/-- Distinct legal moves from the same position lead to states with
different transposition keys: the key records the played edge's owner. -/
theorem childKey_ne (b : Board) (s : GameState) (m m2 : Edge) (pl pl2 : Player)
    (hm : m ∈ b.edges) (hne : m ≠ m2) (hum : s.edges m = -1) :
    hash_state b (apply_move b s m pl).1 ≠ hash_state b (apply_move b s m2 pl2).1 := by
  intro h
  have h1 : (m, (pl : Int)) ∈ hash_state b (apply_move b s m pl).1 := by
    unfold hash_state
    rw [mem_stableSort]
    rw [List.mem_map]
    exact ⟨m, hm, by rw [apply_move_edge_self]⟩
  rw [h] at h1
  unfold hash_state at h1
  rw [mem_stableSort, List.mem_map] at h1
  obtain ⟨e, he, hpair⟩ := h1
  have he1 : e = m := (congrArg Prod.fst hpair)
  have he2 : (apply_move b s m2 pl2).1.edges e = (pl : Int) := congrArg Prod.snd hpair
  rw [he1, apply_move_edge_other b s m2 m pl2 hne, hum] at he2
  exact natCast_ne_negOne pl he2.symm

theorem lookup_cons_ne (k k2 : TTKey) (en : TTEntry) (tt : TT) (hne : k2 ≠ k) :
    List.lookup k2 ((k, en) :: tt) = List.lookup k2 tt := by
  simp only [List.lookup]
  rcases hk : k2 == k
  · rfl
  · exact absurd (eq_of_beq hk) hne

theorem XInt.ite_blt_eq_max (a b : XInt) :
    (if XInt.blt a b then b else a) = XInt.max a b := rfl

theorem XInt.ite_blt_eq_min (a b : XInt) :
    (if XInt.blt b a then b else a) = XInt.min a b := rfl

/-- Unfolding of the depth-`d+1` maximizing arm of `minimax` on a cache
miss at a non-terminal state. -/
theorem minimax_succ_max (b : Board) (d : Nat) (s : GameState) (al be : XInt) (tt : TT)
    (hc : cachedAt b (d + 1) s tt = none) (hterm : is_terminal b s = false) :
    minimax b (d + 1) s al be true tt =
      (let r := abLoopMax (fun s2 a2 b2 mx t2 => minimax b d s2 a2 b2 mx t2) b s
        (order_moves b s (get_possible_moves b s) true) al be XInt.ninf none tt
       (r.1, r.2.1, (hash_state b s, ⟨r.1, r.2.1, d + 1⟩) :: r.2.2)) := by
  simp only [minimax, hc, hterm, Bool.false_eq_true, if_false, if_true]

/-- Unfolding of the depth-`d+1` minimizing arm of `minimax` on a cache
miss at a non-terminal state. -/
theorem minimax_succ_min (b : Board) (d : Nat) (s : GameState) (al be : XInt) (tt : TT)
    (hc : cachedAt b (d + 1) s tt = none) (hterm : is_terminal b s = false) :
    minimax b (d + 1) s al be false tt =
      (let r := abLoopMin (fun s2 a2 b2 mx t2 => minimax b d s2 a2 b2 mx t2) b s
        (order_moves b s (get_possible_moves b s) false) al be XInt.pinf none tt
       (r.1, r.2.1, (hash_state b s, ⟨r.1, r.2.1, d + 1⟩) :: r.2.2)) := by
  simp only [minimax, hc, hterm, Bool.false_eq_true, if_false, if_true]

theorem noPrune_succ_max (b : Board) (d : Nat) (s : GameState)
    (hterm : is_terminal b s = false) :
    minimax_noPrune b (d + 1) s true =
      (get_possible_moves b s).foldl
        (fun acc m =>
          let st := apply_move b s m 1
          XInt.max acc (minimax_noPrune b d st.1 (if st.2 then true else false)))
        XInt.ninf := by
  simp only [minimax_noPrune, hterm, Bool.false_eq_true, if_false, if_true]

theorem noPrune_succ_min (b : Board) (d : Nat) (s : GameState)
    (hterm : is_terminal b s = false) :
    minimax_noPrune b (d + 1) s false =
      (get_possible_moves b s).foldl
        (fun acc m =>
          let st := apply_move b s m 0
          XInt.min acc (minimax_noPrune b d st.1 (if st.2 then false else true)))
        XInt.pinf := by
  simp only [minimax_noPrune, hterm, Bool.false_eq_true, if_false, if_true]

/-- At depth 1 the maximizing loop sees fresh table keys for every child
(the moves are distinct unclaimed edges), gets a leaf evaluation back for
each, and the `beta = +inf` window never triggers the cutoff, so its value
is the plain fold of `max` over the children's evaluations. -/
theorem abLoopMax_depth1 (b : Board) (s : GameState) :
    ∀ (moves : List Edge) (alpha me : XInt) (best : Option Edge) (tt : TT),
      moves.Nodup →
      (∀ m ∈ moves, m ∈ b.edges ∧ s.edges m = -1) →
      (∀ m ∈ moves, tt.lookup (hash_state b (apply_move b s m 1).1) = none) →
      alpha ≠ XInt.pinf →
      (abLoopMax (fun s2 a2 b2 mx t2 => minimax b 0 s2 a2 b2 mx t2) b s moves alpha
          XInt.pinf me best tt).1 =
        moves.foldl
          (fun acc m => XInt.max acc (XInt.fin (evaluate (apply_move b s m 1).1))) me := by
  intro moves
  induction moves with
  | nil =>
    intro alpha me best tt _ _ _ _
    rfl
  | cons m rest ih =>
    intro alpha me best tt hnd hmem hK hal
    have hm0 : m ∈ m :: rest := List.mem_cons_self m rest
    have hcache : cachedAt b 0 (apply_move b s m 1).1 tt = none := by
      unfold cachedAt
      rw [hK m hm0]
    have hrec : ∀ mx2 : Bool,
        minimax b 0 (apply_move b s m 1).1 alpha XInt.pinf mx2 tt
          = (XInt.fin (evaluate (apply_move b s m 1).1), none,
             (hash_state b (apply_move b s m 1).1,
              ⟨XInt.fin (evaluate (apply_move b s m 1).1), none, 0⟩) :: tt) := by
      intro mx2
      simp only [minimax, hcache, leafStep]
    have halpha2 : XInt.max alpha (XInt.fin (evaluate (apply_move b s m 1).1)) ≠ XInt.pinf :=
      XInt.max_ne_pinf alpha (evaluate (apply_move b s m 1).1) hal
    have hble : XInt.ble XInt.pinf
        (XInt.max alpha (XInt.fin (evaluate (apply_move b s m 1).1))) = false :=
      XInt.ble_pinf_false _ halpha2
    have hK2 : ∀ m2 ∈ rest,
        List.lookup (hash_state b (apply_move b s m2 1).1)
          ((hash_state b (apply_move b s m 1).1,
            (⟨XInt.fin (evaluate (apply_move b s m 1).1), none, 0⟩ : TTEntry)) :: tt) = none := by
      intro m2 hm2
      have hm2' : m2 ∈ m :: rest := List.mem_cons_of_mem m hm2
      have hne : m2 ≠ m := by
        intro he
        exact (List.nodup_cons.mp hnd).1 (he ▸ hm2)
      rw [lookup_cons_ne _ _ _ _
        (childKey_ne b s m2 m 1 1 (hmem m2 hm2').1 hne (hmem m2 hm2').2)]
      exact hK m2 hm2'
    simp only [abLoopMax, hrec, hble, Bool.false_eq_true, if_false,
      XInt.ite_blt_eq_max, List.foldl_cons]
    exact ih _ _ _ _ (List.Nodup.of_cons hnd)
      (fun m2 hm2 => hmem m2 (List.mem_cons_of_mem m hm2)) hK2 halpha2

/-- At depth 1 the minimizing loop with `alpha = -inf` likewise computes
the plain fold of `min` over the children's evaluations. -/
theorem abLoopMin_depth1 (b : Board) (s : GameState) :
    ∀ (moves : List Edge) (beta me : XInt) (best : Option Edge) (tt : TT),
      moves.Nodup →
      (∀ m ∈ moves, m ∈ b.edges ∧ s.edges m = -1) →
      (∀ m ∈ moves, tt.lookup (hash_state b (apply_move b s m 0).1) = none) →
      beta ≠ XInt.ninf →
      (abLoopMin (fun s2 a2 b2 mx t2 => minimax b 0 s2 a2 b2 mx t2) b s moves XInt.ninf
          beta me best tt).1 =
        moves.foldl
          (fun acc m => XInt.min acc (XInt.fin (evaluate (apply_move b s m 0).1))) me := by
  intro moves
  induction moves with
  | nil =>
    intro beta me best tt _ _ _ _
    rfl
  | cons m rest ih =>
    intro beta me best tt hnd hmem hK hbe
    have hm0 : m ∈ m :: rest := List.mem_cons_self m rest
    have hcache : cachedAt b 0 (apply_move b s m 0).1 tt = none := by
      unfold cachedAt
      rw [hK m hm0]
    have hrec : ∀ mx2 : Bool,
        minimax b 0 (apply_move b s m 0).1 XInt.ninf beta mx2 tt
          = (XInt.fin (evaluate (apply_move b s m 0).1), none,
             (hash_state b (apply_move b s m 0).1,
              ⟨XInt.fin (evaluate (apply_move b s m 0).1), none, 0⟩) :: tt) := by
      intro mx2
      simp only [minimax, hcache, leafStep]
    have hbeta2 : XInt.min beta (XInt.fin (evaluate (apply_move b s m 0).1)) ≠ XInt.ninf :=
      XInt.min_ne_ninf beta (evaluate (apply_move b s m 0).1) hbe
    have hble : XInt.ble
        (XInt.min beta (XInt.fin (evaluate (apply_move b s m 0).1))) XInt.ninf = false :=
      XInt.ble_ninf_false _ hbeta2
    have hK2 : ∀ m2 ∈ rest,
        List.lookup (hash_state b (apply_move b s m2 0).1)
          ((hash_state b (apply_move b s m 0).1,
            (⟨XInt.fin (evaluate (apply_move b s m 0).1), none, 0⟩ : TTEntry)) :: tt) = none := by
      intro m2 hm2
      have hm2' : m2 ∈ m :: rest := List.mem_cons_of_mem m hm2
      have hne : m2 ≠ m := by
        intro he
        exact (List.nodup_cons.mp hnd).1 (he ▸ hm2)
      rw [lookup_cons_ne _ _ _ _
        (childKey_ne b s m2 m 0 0 (hmem m2 hm2').1 hne (hmem m2 hm2').2)]
      exact hK m2 hm2'
    simp only [abLoopMin, hrec, hble, Bool.false_eq_true, if_false,
      XInt.ite_blt_eq_min, List.foldl_cons]
    exact ih _ _ _ _ (List.Nodup.of_cons hnd)
      (fun m2 hm2 => hmem m2 (List.mem_cons_of_mem m hm2)) hK2 hbeta2

theorem foldl_fn_congr {α β : Type} (f g : β → α → β) (h : ∀ x a, f x a = g x a) :
    ∀ (l : List α) (init : β), l.foldl f init = l.foldl g init := by
  intro l
  induction l with
  | nil =>
    intro init
    rfl
  | cons a as ih =>
    intro init
    rw [List.foldl_cons, List.foldl_cons, h]
    exact ih _

/-- C1 is false as stated: on the two-hexagon board at depth 3 the
alpha-beta search with the transposition table returns `-2` while the
exhaustive no-pruning, no-table minimax returns `0`.  The table key
(`hash_state`) records only edge ownership, so an entry computed under one
score/turn/bonus history is reused for a different one, and values stored
after a cutoff are reused as if they were exact. -/
theorem claim_C1_counterexample :
    (minimax cexBoard 3 cexState XInt.ninf XInt.pinf false []).1 = XInt.fin (-2) ∧
    minimax_noPrune cexBoard 3 cexState false = XInt.fin 0 ∧
    (minimax cexBoard 3 cexState XInt.ninf XInt.pinf false []).1 ≠
      minimax_noPrune cexBoard 3 cexState false := by
  refine ⟨by decide, by decide, by decide⟩

/-- C1 (amended): with the full `(-inf, +inf)` window, an empty starting
table and a duplicate-free edge list, `minimax` agrees with the exhaustive
no-pruning minimax at depth `≤ 1` (at depth `≥ 3` they diverge, see the
counterexample).  At depth 1 every child position differs from every other
at the played edge, so all table lookups miss, and the infinite window
never triggers a cutoff. -/
theorem claim_C1 (b : Board) (s : GameState) (d : Nat) (mx : Bool)
    (hd : d ≤ 1) (hnd : b.edges.Nodup) :
    (minimax b d s XInt.ninf XInt.pinf mx []).1 = minimax_noPrune b d s mx := by
  rcases d with _ | d0
  · rfl
  · have hd0 : d0 = 0 := Nat.le_zero.mp (Nat.lt_succ_iff.mp hd)
    subst hd0
    rcases hterm : is_terminal b s
    · -- non-terminal depth-1 search
      have hpn : (get_possible_moves b s).Nodup := List.Nodup.filter _ hnd
      have hond : ∀ mx2 : Bool, (order_moves b s (get_possible_moves b s) mx2).Nodup :=
        fun mx2 => ((order_moves_perm b s _ mx2).nodup_iff).mpr hpn
      have homem : ∀ mx2 : Bool, ∀ m ∈ order_moves b s (get_possible_moves b s) mx2,
          m ∈ b.edges ∧ s.edges m = -1 := by
        intro mx2 m hm
        have hp := mem_order_moves b s _ mx2 m hm
        exact ⟨(List.mem_filter.mp hp).1, mem_get_possible_moves b s m hp⟩
      rcases mx
      · rw [minimax_succ_min b 0 s XInt.ninf XInt.pinf [] rfl hterm]
        rw [noPrune_succ_min b 0 s hterm]
        show (abLoopMin (fun s2 a2 b2 mx t2 => minimax b 0 s2 a2 b2 mx t2) b s
          (order_moves b s (get_possible_moves b s) false) XInt.ninf XInt.pinf
          XInt.pinf none []).1 = _
        rw [abLoopMin_depth1 b s (order_moves b s (get_possible_moves b s) false)
          XInt.pinf XInt.pinf none [] (hond false) (homem false)
          (fun m _ => rfl) (fun hc2 => XInt.noConfusion hc2)]
        rw [foldl_xmin_perm _ (order_moves_perm b s (get_possible_moves b s) false) XInt.pinf]
        exact foldl_fn_congr _ _ (fun x m => rfl) _ _
      · rw [minimax_succ_max b 0 s XInt.ninf XInt.pinf [] rfl hterm]
        rw [noPrune_succ_max b 0 s hterm]
        show (abLoopMax (fun s2 a2 b2 mx t2 => minimax b 0 s2 a2 b2 mx t2) b s
          (order_moves b s (get_possible_moves b s) true) XInt.ninf XInt.pinf
          XInt.ninf none []).1 = _
        rw [abLoopMax_depth1 b s (order_moves b s (get_possible_moves b s) true)
          XInt.ninf XInt.ninf none [] (hond true) (homem true)
          (fun m _ => rfl) (fun hc2 => XInt.noConfusion hc2)]
        rw [foldl_xmax_perm _ (order_moves_perm b s (get_possible_moves b s) true) XInt.ninf]
        exact foldl_fn_congr _ _ (fun x m => rfl) _ _
    · -- terminal at depth 1: both sides evaluate the leaf
      have hc : cachedAt b (0 + 1) s [] = none := rfl
      simp only [minimax, minimax_noPrune, hc, hterm, if_true, leafStep]

/-- The amended C1 theorem applied on the concrete two-hexagon instance at
depth 1 for the maximizing player. -/
theorem claim_C1_witness :
    (1 : Nat) ≤ 1 ∧ cexBoard.edges.Nodup ∧
    (minimax cexBoard 1 cexState XInt.ninf XInt.pinf true []).1 =
      minimax_noPrune cexBoard 1 cexState true :=
  ⟨by decide, by decide, claim_C1 cexBoard cexState 1 true (by decide) (by decide)⟩

end HexaHunt
